import Mathlib

/-!
Shallow embedding of the CrystFEL merging / post-refinement / figure-of-merit
engine (src/src/partialator.c and fom.c), with theorems checking the
natural-language specification against the code.  Floating-point doubles are
idealised as exact rationals `ℚ`; the C library's transcendental functions
(sqrt, log, exp) and the GSL fitting/statistics routines are abstracted as
parameters, since their implementations are external to this repository.
-/

/-- Modelled from the spec: a stored reflection (§3 "Reflection (stored)" of the
spec; the reflist.c container itself is not under src/).  Fields follow the
accessors used by partialator.c and fom.c: Miller indices, intensity,
σ(I) (`esd`), partiality, redundancy, the `scalable` and `refinable` flags and
the scratch `flag` used by fom_calculate. -/
structure Refl where
  h : Int
  k : Int
  l : Int
  intensity : ℚ
  esd : ℚ
  partiality : ℚ
  redundancy : Nat
  scalable : Bool
  refinable : Bool
  flag : Bool
deriving DecidableEq

/-- Modelled from the spec: `find_refl` of reflist.c (not under src/); the spec
(§3 ReflList) states that `find(h,k,l)` is an exact lookup with no symmetry
folding.  A RefList is modelled as the list of its reflections in iteration
order; `find_refl` returns the first reflection with the given indices. -/
def find_refl (list : List Refl) (h k l : Int) : Option Refl :=
  list.find? (fun r => r.h = h && r.k = k && r.l = l)

/-- Translation of `select_scalable_reflections` (src/src/partialator.c lines
170-217): walk the list; start with `sc = 1`; clear it when the redundancy is
zero, when the partiality is below 0.05, or (when scaling against a reference
set) when the reflection is absent from the reference; store the flag and count
the accepted reflections. -/
def select_scalable_reflections : List Refl → Option (List Refl) → List Refl × Nat
  | [], _ => ([], 0)
  | r :: rest, reference =>
      let sc0 : Bool := true
      let sc1 : Bool := if r.redundancy = 0 then false else sc0
      let sc2 : Bool := if r.partiality < 5/100 then false else sc1
      let sc3 : Bool :=
        match reference with
        | none => sc2
        | some ref =>
            if find_refl ref r.h r.k r.l = none then false else sc2
      let tail := select_scalable_reflections rest reference
      ({ r with scalable := sc3 } :: tail.1,
       (if sc3 then 1 else 0) + tail.2)

/-- The spec's criterion for a scalable reflection, written from the spec's
words for comparison with the code: partiality at least P_MIN = 0.05, nonzero
redundancy, and presence in the reference list when one is supplied. -/
def scalableSpec (reference : Option (List Refl)) (r : Refl) : Bool :=
  (5/100 ≤ r.partiality) && (r.redundancy ≠ 0) &&
    (match reference with
     | none => true
     | some ref => (find_refl ref r.h r.k r.l).isSome)

/-- Translation of the per-reflection body of the loop in
`select_reflections_for_refinement` (src/src/partialator.c lines 220-295):
a weak reflection (I < 3σ) is marked not refinable; a non-scalable reflection
is marked not refinable; otherwise the full list is consulted: if the entry is
missing the program calls abort() (modelled as `none`); if it is present with
redundancy at least 2, or an external reference is in use, the reflection is
marked refinable; otherwise only the `n_fewmatch` counter is bumped and the
reflection is returned with its flags untouched. -/
def refineFlagUpdate (full : List Refl) (have_reference : Bool) (r : Refl) :
    Option Refl :=
  if r.intensity < 3 * r.esd then
    some { r with refinable := false }
  else if r.scalable = false then
    some { r with refinable := false }
  else
    match find_refl full r.h r.k r.l with
    | some f =>
        if 2 ≤ f.redundancy ∨ have_reference = true then
          some { r with refinable := true }
        else
          some r
    | none => none

/-- Option-valued map over a list, propagating the first failure; used to
thread the abort() of `select_reflections_for_refinement` through the loops
over reflections and crystals. -/
def mapO {α β : Type} (f : α → Option β) : List α → Option (List β)
  | [] => some []
  | a :: as =>
      match f a, mapO f as with
      | some b, some bs => some (b :: bs)
      | _, _ => none

/-- Translation of `select_reflections_for_refinement` (src/src/partialator.c
lines 220-295): for each crystal's reflection list, update every reflection's
refinable flag by `refineFlagUpdate`; a crystal is represented by its
reflection list, the only part the function reads. -/
def select_reflections_for_refinement (crystals : List (List Refl))
    (full : List Refl) (have_reference : Bool) : Option (List (List Refl)) :=
  mapO (fun cl => mapO (refineFlagUpdate full have_reference) cl) crystals

/-- The partiality models accepted by partialator.c's option parsing
(PMODEL_SPHERE and PMODEL_UNITY). -/
inductive PartialityModel where
  | unity
  | sphere
deriving DecidableEq

/-- Modelled from the spec: the per-snapshot crystal aggregate (§3 "Crystal");
crystal.c is not under src/.  Only the fields named by the claims are carried:
the overall scale factor, the orientation quaternion, and the reflection
list. -/
structure Crystal where
  osf : ℚ
  orient : ℚ × ℚ × ℚ × ℚ
  reflections : List Refl
deriving DecidableEq

/-- Translation of `refine_all` (src/src/partialator.c lines 138-166): when the
partiality model is PMODEL_UNITY the function returns at once, before any
refinement task is created; otherwise worker threads apply `pr_refine`
(post-refinement.c, outside src/, abstracted as a parameter) to every
crystal. -/
def refine_all (pmodel : PartialityModel) (pr_refine : Crystal → Crystal)
    (crystals : List Crystal) : List Crystal :=
  if pmodel = PartialityModel.unity then crystals
  else crystals.map pr_refine

/-- Auxiliary: `mapO` preserves positional access — if `mapO f l` succeeds,
the element of the output at index `i` is `f` of the input element there. -/
theorem mapO_getElem? {α β : Type} (f : α → Option β) :
    ∀ (l : List α) (l' : List β), mapO f l = some l' →
      ∀ (i : Nat) (a : α), l[i]? = some a → l'[i]? = f a := by
  intro l
  induction l with
  | nil => intro l' h i a ha; simp at ha
  | cons x xs ih =>
      intro l' h i a ha
      rw [mapO] at h
      cases hfx : f x with
      | none => rw [hfx] at h; simp at h
      | some b =>
          rw [hfx] at h
          cases hrest : mapO f xs with
          | none => rw [hrest] at h; simp at h
          | some bs =>
              rw [hrest] at h
              simp at h
              subst h
              cases i with
              | zero => simp at ha; subst ha; simpa using hfx.symm
              | succ j => simp at ha ⊢; exact ih bs hrest j a ha

/-- Per-reflection characterisation of the refinable flag written by
`refineFlagUpdate`: the flag ends up `true` exactly when the reflection is
strong (I ≥ 3σ), scalable, and its full-list entry has redundancy ≥ 2 or an
external reference is in use — or when it is strong and scalable, the
full-list entry exists but has redundancy < 2 without an external reference,
and the flag was already `true` before the pass (the code leaves it alone in
that case). -/
theorem refineFlagUpdate_spec (full : List Refl) (have_reference : Bool)
    (r r' : Refl) (h : refineFlagUpdate full have_reference r = some r') :
    r'.refinable = true ↔
      ((3 * r.esd ≤ r.intensity ∧ r.scalable = true ∧
        (∃ f, find_refl full r.h r.k r.l = some f ∧
          (2 ≤ f.redundancy ∨ have_reference = true)))
       ∨ (3 * r.esd ≤ r.intensity ∧ r.scalable = true ∧
          (∃ f, find_refl full r.h r.k r.l = some f ∧
            ¬ (2 ≤ f.redundancy ∨ have_reference = true)) ∧
          r.refinable = true)) := by
  rw [refineFlagUpdate] at h
  by_cases hweak : r.intensity < 3 * r.esd
  · rw [if_pos hweak] at h
    simp only [Option.some.injEq] at h
    subst h
    apply iff_of_false
    · simp
    · rintro (⟨hle, -, -⟩ | ⟨hle, -, -, -⟩) <;> exact absurd hle (not_le.mpr hweak)
  · rw [if_neg hweak] at h
    by_cases hsc : r.scalable = false
    · rw [if_pos hsc] at h
      simp only [Option.some.injEq] at h
      subst h
      apply iff_of_false
      · simp
      · rintro (⟨-, htr, -⟩ | ⟨-, htr, -, -⟩) <;>
          (rw [hsc] at htr; exact Bool.false_ne_true htr)
    · rw [if_neg hsc] at h
      simp only [Bool.not_eq_false] at hsc
      cases hf : find_refl full r.h r.k r.l with
      | none => rw [hf] at h; simp at h
      | some f =>
          rw [hf] at h
          dsimp only at h
          by_cases hcond : 2 ≤ f.redundancy ∨ have_reference = true
          · rw [if_pos hcond] at h
            simp only [Option.some.injEq] at h
            subst h
            apply iff_of_true
            · rfl
            · exact Or.inl ⟨not_lt.mp hweak, hsc, ⟨f, rfl, hcond⟩⟩
          · rw [if_neg hcond] at h
            simp only [Option.some.injEq] at h
            subst h
            constructor
            · intro hr
              exact Or.inr ⟨not_lt.mp hweak, hsc, ⟨f, rfl, hcond⟩, hr⟩
            · rintro (⟨-, -, f', hf', hc'⟩ | ⟨-, -, -, hr⟩)
              · obtain rfl : f = f' := Option.some.inj hf'
                exact absurd hc' hcond
              · exact hr

/-- Claim C1 (amended).  After refinable-selection, a reflection of any
crystal is flagged refinable iff it is strong (I ≥ 3σ), scalable, and its
(h,k,l) is in the full list with redundancy ≥ 2 or with an external reference
— or it satisfies the first two conditions, its full-list entry exists but has
redundancy < 2 with no external reference, and the reflection was already
flagged refinable before the pass: in that last case the code does not clear
the flag. -/
theorem c1_refinable_selection_amended
    (crystals : List (List Refl)) (full : List Refl) (have_reference : Bool)
    (out : List (List Refl))
    (hsel : select_reflections_for_refinement crystals full have_reference
              = some out)
    (ci ri : Nat) (cl : List Refl) (r r' : Refl)
    (hcl : crystals[ci]? = some cl) (hr : cl[ri]? = some r)
    (hcl' : ∃ cl', out[ci]? = some cl' ∧ cl'[ri]? = some r') :
    r'.refinable = true ↔
      ((3 * r.esd ≤ r.intensity ∧ r.scalable = true ∧
        (∃ f, find_refl full r.h r.k r.l = some f ∧
          (2 ≤ f.redundancy ∨ have_reference = true)))
       ∨ (3 * r.esd ≤ r.intensity ∧ r.scalable = true ∧
          (∃ f, find_refl full r.h r.k r.l = some f ∧
            ¬ (2 ≤ f.redundancy ∨ have_reference = true)) ∧
          r.refinable = true)) := by
  obtain ⟨cl', hout, hr'⟩ := hcl'
  have h1 := mapO_getElem? _ crystals out hsel ci cl hcl
  rw [hout] at h1
  have h2 := mapO_getElem? _ cl cl' h1.symm ri r hr
  rw [hr'] at h2
  exact refineFlagUpdate_spec full have_reference r r' h2.symm

/-- A concrete reflection for the counterexample to claim C1 as stated:
strong (I = 10, σ = 1), scalable, and already flagged refinable. -/
def cexRefl : Refl :=
  { h := 1, k := 0, l := 0, intensity := 10, esd := 1, partiality := 1,
    redundancy := 1, scalable := true, refinable := true, flag := false }

/-- The matching full-list entry for the counterexample: redundancy 1 only. -/
def cexFull : Refl :=
  { h := 1, k := 0, l := 0, intensity := 100, esd := 1, partiality := 1,
    redundancy := 1, scalable := false, refinable := false, flag := false }

/-- Counterexample to claim C1 as stated.  With no external reference, on a
single crystal holding the single reflection `cexRefl` and a full list whose
matching entry has redundancy 1, refinable-selection succeeds and leaves the
reflection flagged refinable, although the claimed condition fails (the
full-list redundancy is below 2 and no reference was supplied): the claimed
"if and only if" is false at this input. -/
theorem c1_counterexample :
    select_reflections_for_refinement [[cexRefl]] [cexFull] false
        = some [[cexRefl]]
    ∧ find_refl [cexFull] cexRefl.h cexRefl.k cexRefl.l = some cexFull
    ∧ ¬ (cexRefl.refinable = true ↔
          (cexRefl.scalable = true ∧ 3 * cexRefl.esd ≤ cexRefl.intensity ∧
           2 ≤ cexFull.redundancy)) := by
  refine ⟨by norm_num [select_reflections_for_refinement, mapO,
    refineFlagUpdate, find_refl, cexRefl, cexFull],
    by norm_num [find_refl, cexRefl, cexFull], ?_⟩
  intro hiff
  have := hiff.mp (by decide)
  exact absurd this.2.2 (by decide)

/-- Witness for the amended claim C1: a strong, scalable reflection whose full
entry has redundancy 3 comes out flagged refinable. -/
theorem c1_refinable_selection_amended_witness :
    ({ cexRefl with refinable := true } : Refl).refinable = true ↔
      ((3 * cexRefl.esd ≤ cexRefl.intensity ∧ cexRefl.scalable = true ∧
        (∃ f, find_refl [{ cexFull with redundancy := 3 }]
                cexRefl.h cexRefl.k cexRefl.l = some f ∧
          (2 ≤ f.redundancy ∨ false = true)))
       ∨ (3 * cexRefl.esd ≤ cexRefl.intensity ∧ cexRefl.scalable = true ∧
          (∃ f, find_refl [{ cexFull with redundancy := 3 }]
                  cexRefl.h cexRefl.k cexRefl.l = some f ∧
            ¬ (2 ≤ f.redundancy ∨ false = true)) ∧
          cexRefl.refinable = true)) :=
  c1_refinable_selection_amended [[cexRefl]] [{ cexFull with redundancy := 3 }]
    false [[{ cexRefl with refinable := true }]]
    (by norm_num [select_reflections_for_refinement, mapO, refineFlagUpdate,
      find_refl, cexRefl, cexFull]) 0 0 [cexRefl]
    cexRefl { cexRefl with refinable := true } rfl rfl
    ⟨[{ cexRefl with refinable := true }], rfl, rfl⟩

/-- Boolean equality between the flag computed by the code's sequence of
clearing steps and the spec's conjunction `scalableSpec`. -/
theorem scalable_flag_eq (reference : Option (List Refl)) (r : Refl) :
    (match reference with
     | none =>
         if r.partiality < 5/100 then false
         else if r.redundancy = 0 then false else true
     | some ref =>
         if find_refl ref r.h r.k r.l = none then false
         else if r.partiality < 5/100 then false
         else if r.redundancy = 0 then false else true)
      = scalableSpec reference r := by
  cases reference with
  | none =>
      by_cases hp : r.partiality < 5/100 <;>
        by_cases hr0 : r.redundancy = 0 <;>
          simp [scalableSpec, hp, hr0, not_le.mpr, le_of_not_lt]
  | some ref =>
      by_cases hfind : find_refl ref r.h r.k r.l = none <;>
        by_cases hp : r.partiality < 5/100 <;>
          by_cases hr0 : r.redundancy = 0 <;>
            simp [scalableSpec, hfind, hp, hr0, Option.isSome_iff_ne_none,
                  not_le.mpr, le_of_not_lt]

/-- Unfolding of `select_scalable_reflections` on a cons cell, with the
computed flag rewritten to the spec's conjunction. -/
theorem select_scalable_cons (reference : Option (List Refl)) (r : Refl)
    (rest : List Refl) :
    select_scalable_reflections (r :: rest) reference
      = ({ r with scalable := scalableSpec reference r }
           :: (select_scalable_reflections rest reference).1,
         (if scalableSpec reference r = true then 1 else 0)
           + (select_scalable_reflections rest reference).2) := by
  simp only [select_scalable_reflections]
  rw [scalable_flag_eq reference r]

/-- Claim C2.  After scalable-selection, a reflection is flagged scalable iff
its partiality is at least 0.05, its redundancy is nonzero, and — when a
reference list is provided — its exact (h,k,l) is present in the reference;
all other fields are untouched, and the return value is the number of
reflections flagged scalable. -/
theorem c2_select_scalable_characterisation
    (list : List Refl) (reference : Option (List Refl)) :
    (select_scalable_reflections list reference).1
        = list.map (fun r => { r with scalable := scalableSpec reference r })
    ∧ (select_scalable_reflections list reference).2
        = ((select_scalable_reflections list reference).1.filter
            (fun r => r.scalable)).length := by
  induction list with
  | nil => exact ⟨rfl, rfl⟩
  | cons r rest ih =>
      rw [select_scalable_cons, List.map_cons]
      constructor
      · exact congrArg₂ (· :: ·) rfl ih.1
      · rw [List.filter_cons]
        cases hs : scalableSpec reference r with
        | false => simp [hs, ih.2]
        | true => simp [hs, ih.2, Nat.add_comm]

/-- Claim C3.  Running the post-refinement stage (`refine_all`) with the unity
partiality model returns the crystals untouched: no crystal's OSF, orientation
or reflection values are changed, whatever per-crystal refinement function the
worker threads would have applied. -/
theorem c3_refine_all_unity_noop (pr_refine : Crystal → Crystal)
    (crystals : List Crystal) :
    refine_all PartialityModel.unity pr_refine crystals = crystals := by
  rw [refine_all, if_pos rfl]

/-- The figures of merit offered by fom.c (`enum fom_type`). -/
inductive FomType where
  | R1I
  | R1F
  | R2
  | Rsplit
  | CC
  | CCstar
  | CCano
  | CRDano
  | Rano
  | RanoRsplit
  | D1sig
  | D2sig
deriving DecidableEq

/-- The external numeric routines used by fom.c: the C library's sqrt, log and
exp, and the GSL least-squares fit (`gsl_fit_linear`, returning the intercept
and slope, or failing), correlation (`gsl_stats_correlation`) and variance
about a fixed zero mean (`gsl_stats_variance_m`).  They are parameters of the
development: every theorem below holds for every choice of them. -/
structure NumOps where
  sqrt : ℚ → ℚ
  log : ℚ → ℚ
  exp : ℚ → ℚ
  fitLinear : List (ℚ × ℚ) → Option (ℚ × ℚ)
  correlation : List (ℚ × ℚ) → ℚ
  variance : List ℚ → ℚ

/-- The accumulator state of fom.c's `struct fom_context`: per-shell counters
and numerator/denominator sums, the auxiliary sums num2/den2 used by
Rano/Rsplit, the per-shell data vectors of the correlation FOMs, and the
per-shell `n_within` counters of D1sig/D2sig.  All fields are kept; init_fom
allocates only those the chosen FOM uses, zero-initialised as here. -/
structure FomCtx where
  fom : FomType
  nshells : Nat
  cts : List Nat
  num : List ℚ
  den : List ℚ
  num2 : List ℚ
  den2 : List ℚ
  vec1 : List (List ℚ)
  vec2 : List (List ℚ)
  n_within : List Nat

/-- Translation of `init_fom` (fom.c): all accumulators start at zero (empty
vectors for the correlation FOMs). -/
def init_fom (fom : FomType) (nshells : Nat) : FomCtx :=
  { fom := fom
    nshells := nshells
    cts := List.replicate nshells 0
    num := List.replicate nshells 0
    den := List.replicate nshells 0
    num2 := List.replicate nshells 0
    den2 := List.replicate nshells 0
    vec1 := List.replicate nshells []
    vec2 := List.replicate nshells []
    n_within := List.replicate nshells 0 }

/-- Update the element of a list at an index (the C code writes through
`array[bin]`). -/
def updAt {α : Type} : List α → Nat → (α → α) → List α
  | [], _, _ => []
  | a :: as, 0, g => g a :: as
  | a :: as, i + 1, g => a :: updAt as i g

/-- Translation of `add_to_fom` (fom.c lines 337-413): bump the shell's
observation counter, then update the accumulator selected by the FOM kind.
`f1`/`f2` are the square roots of the intensities; for Rano/Rsplit the code
first adds to num2/den2 and falls through to the Rano case. -/
def add_to_fom (ops : NumOps) (fctx : FomCtx)
    (i1 i2 i1bij i2bij sig1 sig2 : ℚ) (bin : Nat) : FomCtx :=
  let fctx := { fctx with cts := updAt fctx.cts bin (· + 1) }
  let f1 := ops.sqrt i1
  let f2 := ops.sqrt i2
  match fctx.fom with
  | FomType.R1I =>
      { fctx with num := updAt fctx.num bin (· + |i1 - i2|),
                  den := updAt fctx.den bin (· + i1) }
  | FomType.R1F =>
      { fctx with num := updAt fctx.num bin (· + |f1 - f2|),
                  den := updAt fctx.den bin (· + f1) }
  | FomType.R2 =>
      { fctx with num := updAt fctx.num bin (· + (i1 - i2) ^ 2),
                  den := updAt fctx.den bin (· + i1 ^ 2) }
  | FomType.Rsplit =>
      { fctx with num := updAt fctx.num bin (· + |i1 - i2|),
                  den := updAt fctx.den bin (· + (i1 + i2)) }
  | FomType.CC =>
      { fctx with vec1 := updAt fctx.vec1 bin (· ++ [i1]),
                  vec2 := updAt fctx.vec2 bin (· ++ [i2]) }
  | FomType.CCstar =>
      { fctx with vec1 := updAt fctx.vec1 bin (· ++ [i1]),
                  vec2 := updAt fctx.vec2 bin (· ++ [i2]) }
  | FomType.CCano =>
      { fctx with vec1 := updAt fctx.vec1 bin (· ++ [i1 - i1bij]),
                  vec2 := updAt fctx.vec2 bin (· ++ [i2 - i2bij]) }
  | FomType.CRDano =>
      { fctx with vec1 := updAt fctx.vec1 bin (· ++ [i1 - i1bij]),
                  vec2 := updAt fctx.vec2 bin (· ++ [i2 - i2bij]) }
  | FomType.RanoRsplit =>
      let fctx := { fctx with num2 := updAt fctx.num2 bin (· + |i1 - i2|),
                              den2 := updAt fctx.den2 bin (· + (i1 + i2)) }
      let im := (i1 + i2) / 2
      let imbij := (i1bij + i2bij) / 2
      { fctx with num := updAt fctx.num bin (· + |im - imbij|),
                  den := updAt fctx.den bin (· + (im + imbij)) }
  | FomType.Rano =>
      let im := (i1 + i2) / 2
      let imbij := (i1bij + i2bij) / 2
      { fctx with num := updAt fctx.num bin (· + |im - imbij|),
                  den := updAt fctx.den bin (· + (im + imbij)) }
  | FomType.D1sig =>
      if |i1 - i2| < ops.sqrt (sig1 * sig1 + sig2 * sig2) then
        { fctx with n_within := updAt fctx.n_within bin (· + 1) }
      else fctx
  | FomType.D2sig =>
      if |i1 - i2| < 2 * ops.sqrt (sig1 * sig1 + sig2 * sig2) then
        { fctx with n_within := updAt fctx.n_within bin (· + 1) }
      else fctx

/-- Read a per-shell accumulator entry (array access in the C code). -/
def shellVal (xs : List ℚ) (i : Nat) : ℚ := xs.getD i 0

/-- Sum an accumulator array over all shells, as the `for` loops of
`fom_overall` do. -/
def sumShells (xs : List ℚ) (nshells : Nat) : ℚ :=
  ((List.range nshells).map (fun i => xs.getD i 0)).sum

/-- Sum a per-shell counter array over all shells. -/
def sumShellsN (xs : List Nat) (nshells : Nat) : Nat :=
  ((List.range nshells).map (fun i => xs.getD i 0)).sum

/-- Concatenate the per-shell data vectors of the correlation FOMs into one
flat list of pairs, as `fom_overall` copies `vec1[i][j]`, `vec2[i][j]` into
`overall_vec1`/`overall_vec2`. -/
def joinVecs (fctx : FomCtx) : List (ℚ × ℚ) :=
  ((List.range fctx.nshells).map
    (fun i => List.zip (fctx.vec1.getD i []) (fctx.vec2.getD i []))).flatten

/-- Translation of `fom_overall` (fom.c lines 416-555): the first switch
accumulates numerators and denominators (or concatenates the per-shell data
vectors) across all shells; the second switch turns the accumulated values
into the figure of merit, applying the ratio and root once. -/
def fom_overall (ops : NumOps) (fctx : FomCtx) : ℚ :=
  match fctx.fom with
  | FomType.R1I =>
      sumShells fctx.num fctx.nshells / sumShells fctx.den fctx.nshells
  | FomType.R1F =>
      sumShells fctx.num fctx.nshells / sumShells fctx.den fctx.nshells
  | FomType.R2 =>
      ops.sqrt (sumShells fctx.num fctx.nshells / sumShells fctx.den fctx.nshells)
  | FomType.Rsplit =>
      2 * (sumShells fctx.num fctx.nshells / sumShells fctx.den fctx.nshells)
        / ops.sqrt 2
  | FomType.CC => ops.correlation (joinVecs fctx)
  | FomType.CCano => ops.correlation (joinVecs fctx)
  | FomType.CCstar =>
      let cc := ops.correlation (joinVecs fctx)
      ops.sqrt ((2 * cc) / (1 + cc))
  | FomType.CRDano =>
      let variance_signal :=
        ops.variance ((joinVecs fctx).map (fun p => (p.1 + p.2) / ops.sqrt 2))
      let variance_error :=
        ops.variance ((joinVecs fctx).map (fun p => (p.1 - p.2) / ops.sqrt 2))
      ops.sqrt (variance_signal / variance_error)
  | FomType.Rano =>
      2 * (sumShells fctx.num fctx.nshells / sumShells fctx.den fctx.nshells)
  | FomType.RanoRsplit =>
      (2 * (sumShells fctx.num fctx.nshells / sumShells fctx.den fctx.nshells))
        / (2 * (sumShells fctx.num2 fctx.nshells / sumShells fctx.den2 fctx.nshells)
             / ops.sqrt 2)
  | FomType.D1sig =>
      (sumShellsN fctx.n_within fctx.nshells : ℚ)
        / (sumShellsN fctx.cts fctx.nshells : ℚ)
  | FomType.D2sig =>
      (sumShellsN fctx.n_within fctx.nshells : ℚ)
        / (sumShellsN fctx.cts fctx.nshells : ℚ)

/-- Translation of `fom_shell` (fom.c lines 558-621): the figure of merit of
one resolution shell, from that shell's accumulators only. -/
def fom_shell (ops : NumOps) (fctx : FomCtx) (i : Nat) : ℚ :=
  match fctx.fom with
  | FomType.R1I => shellVal fctx.num i / shellVal fctx.den i
  | FomType.R1F => shellVal fctx.num i / shellVal fctx.den i
  | FomType.R2 => ops.sqrt (shellVal fctx.num i / shellVal fctx.den i)
  | FomType.Rsplit =>
      2 * (shellVal fctx.num i / shellVal fctx.den i) / ops.sqrt 2
  | FomType.CC =>
      ops.correlation (List.zip (fctx.vec1.getD i []) (fctx.vec2.getD i []))
  | FomType.CCano =>
      ops.correlation (List.zip (fctx.vec1.getD i []) (fctx.vec2.getD i []))
  | FomType.CCstar =>
      let cc := ops.correlation
        (List.zip (fctx.vec1.getD i []) (fctx.vec2.getD i []))
      ops.sqrt ((2 * cc) / (1 + cc))
  | FomType.Rano => 2 * shellVal fctx.num i / shellVal fctx.den i
  | FomType.RanoRsplit =>
      (2 * shellVal fctx.num i / shellVal fctx.den i)
        / (2 * (shellVal fctx.num2 i / shellVal fctx.den2 i) / ops.sqrt 2)
  | FomType.CRDano =>
      let pairs := List.zip (fctx.vec1.getD i []) (fctx.vec2.getD i [])
      let variance_signal :=
        ops.variance (pairs.map (fun p => (p.1 + p.2) / ops.sqrt 2))
      let variance_error :=
        ops.variance (pairs.map (fun p => (p.1 - p.2) / ops.sqrt 2))
      ops.sqrt (variance_signal / variance_error)
  | FomType.D1sig =>
      (fctx.n_within.getD i 0 : ℚ) / (fctx.cts.getD i 0 : ℚ)
  | FomType.D2sig =>
      (fctx.n_within.getD i 0 : ℚ) / (fctx.cts.getD i 0 : ℚ)

/-- The resolution shells of fom.c's `struct fom_shells`: per-shell lower and
upper boundaries. -/
structure FomShells where
  nshells : Nat
  rmins : List ℚ
  rmaxs : List ℚ

/-- Core of `get_bin` (fom.c lines 672-695) on the doubled resolution `d`:
scan the shells in order and stop at the first with rmins[j] < d ≤ rmaxs[j];
if none matched, a value at or below the lowest boundary, or at or beyond the
highest boundary, falls into bin 0 ("allow for slight rounding errors");
otherwise the sentinel -1 survives. -/
def binSearch (s : FomShells) (d : ℚ) : Nat → Nat → Int
  | _, 0 => -1
  | j, fuel + 1 =>
      if s.rmins.getD j 0 < d ∧ d ≤ s.rmaxs.getD j 0 then (j : Int)
      else binSearch s d (j + 1) fuel

/-- Core of `get_bin` on the doubled resolution `d` (continued): the loop
starts at shell 0 with `nshells` iterations remaining, then the two
rounding-error fallbacks apply. -/
def get_bin_d (s : FomShells) (d : ℚ) : Int :=
  let bin : Int := binSearch s d 0 s.nshells
  let bin : Int := if bin = -1 ∧ d ≤ s.rmins.getD 0 0 then 0 else bin
  let bin : Int :=
    if bin = -1 ∧ s.rmaxs.getD (s.nshells - 1) 0 ≤ d then 0 else bin
  bin

/-- Translation of `get_bin` (fom.c lines 672-695): the shell of a reflection
is found from d = 2·resolution(cell, h, k, l); the unit cell's `resolution`
function (cell.c, not under src/) is a parameter `res`. -/
def get_bin (s : FomShells) (res : Int → Int → Int → ℚ) (r : Refl) : Int :=
  get_bin_d s (2 * res r.h r.k r.l)

/-- The pair-collection loop of `wilson_scale` (fom.c lines 718-753): for each
reflection of list 1, the matching reflection of list 2 is looked up (the code
asserts it exists — modelled as `none`); pairs with a nonpositive intensity on
either side are skipped (the NaN/infinity tests cannot fire over ℚ); a kept
pair contributes x = res², y = log(I₁/I₂). -/
def wilson_pairs (list2 : List Refl) (res : Int → Int → Int → ℚ)
    (ops : NumOps) : List Refl → Option (List (ℚ × ℚ))
  | [] => some []
  | r1 :: rest =>
      match find_refl list2 r1.h r1.k r1.l with
      | none => none
      | some r2 =>
          match wilson_pairs list2 res ops rest with
          | none => none
          | some ps =>
              if 0 < r1.intensity ∧ 0 < r2.intensity then
                some ((res r1.h r1.k r1.l * res r1.h r1.k r1.l,
                       ops.log (r1.intensity / r2.intensity)) :: ps)
              else some ps

/-- Result of `wilson_scale`: the assert on a missing common reflection, the
failure return 1, or success with the (unchanged) list 1 and the rescaled
list 2 — the C function mutates list 2 in place and never writes list 1. -/
inductive WilsonResult where
  | assertFail
  | scalingFailed
  | ok (list1 list2 : List Refl)
deriving DecidableEq

/-- Translation of `wilson_scale` (fom.c lines 698-799): collect the usable
pairs; fewer than 2 pairs is a failure; fit y = c0 + c1·x by least squares
(gsl_fit_linear, a parameter; nonzero return is a failure); then G = exp(c0),
B = c1/2, and every reflection of list 2 has intensity and σ(I) multiplied by
corr = G·exp(2·B·res²) at its own resolution. -/
def wilson_scale (ops : NumOps) (res : Int → Int → Int → ℚ)
    (list1 list2 : List Refl) : WilsonResult :=
  match wilson_pairs list2 res ops list1 with
  | none => WilsonResult.assertFail
  | some ps =>
      if ps.length < 2 then WilsonResult.scalingFailed
      else
        match ops.fitLinear ps with
        | none => WilsonResult.scalingFailed
        | some (c0, c1) =>
            let G := ops.exp c0
            let B := c1 / 2
            WilsonResult.ok list1 (list2.map (fun r2 =>
              let rr := res r2.h r2.k r2.l
              let corr := G * ops.exp (2 * B * (rr * rr))
              { r2 with intensity := r2.intensity * corr,
                        esd := r2.esd * corr }))

/-- Modelled from the spec: position of the first reflection with the given
indices (reflist.c is not under src/); used to model in-place flag writes. -/
def find_idx : List Refl → Int → Int → Int → Option Nat
  | [], _, _, _ => none
  | r :: rest, a, b, c =>
      if r.h = a && r.k = b && r.l = c then some 0
      else (find_idx rest a b c).map (· + 1)

/-- The FOM kinds whose accumulation needs the Bijvoet-partner intensities
(the `if` in fom_calculate's main loop). -/
def isAnomalous : FomType → Bool
  | FomType.CCano => true
  | FomType.CRDano => true
  | FomType.Rano => true
  | FomType.RanoRsplit => true
  | _ => false

/-- The flag-clearing loop at the top of `fom_calculate` (fom.c lines
824-835): for each reflection of list 1, clear its flag, look its indices up
in list 2 (the code asserts the entry exists — modelled as `none`) and clear
that entry's flag too. -/
def clearLoop : List Nat → List Refl → List Refl →
    Option (List Refl × List Refl)
  | [], l1, l2 => some (l1, l2)
  | i :: rest, l1, l2 =>
      match l1[i]? with
      | none => clearLoop rest l1 l2
      | some r1 =>
          let l1' := updAt l1 i (fun r => { r with flag := false })
          match find_idx l2 r1.h r1.k r1.l with
          | none => none
          | some j => clearLoop rest l1'
                        (updAt l2 j (fun r => { r with flag := false }))

/-- State of fom_calculate's main loop: both lists (whose flags the anomalous
FOMs mutate), the accumulator context, and the `n_out` counter of reflection
pairs that fell outside the resolution range. -/
structure FcState where
  l1 : List Refl
  l2 : List Refl
  fctx : FomCtx
  n_out : Nat

/-- Stand-in for the +INFINITY poison value the code stores into i1bij/i2bij
for the non-anomalous FOMs ("make it obvious if these get used by mistake");
ℚ has no infinity, and `add_to_fom` never reads the value for those FOMs. -/
def infinityPoison : ℚ := 0

/-- One iteration of fom_calculate's main loop (fom.c lines 837-911) at index
`i` of list 1: look the reflection up in list 2 (`continue` when absent), bin
it (count and skip when the bin is -1); for the anomalous FOMs find both
Bijvoet partners through `find_equiv_in_list` (reflist-utils.c, not under
src/, a parameter `findEquiv`), skip reflections already flagged, fail on the
asserts (a flagged list-2 partner, or a missing Bijvoet partner, which the
code would dereference), flag all four reflections and accumulate with the
partner intensities; otherwise accumulate directly. -/
def fcStep (ops : NumOps) (res : Int → Int → Int → ℚ)
    (findEquiv : List Refl → Int → Int → Int → Option (Int × Int × Int))
    (shells : FomShells) (st : FcState) (i : Nat) : Option FcState :=
  match st.l1[i]? with
  | none => some st
  | some r1 =>
      match find_idx st.l2 r1.h r1.k r1.l with
      | none => some st
      | some j2 =>
          match st.l2[j2]? with
          | none => some st
          | some r2 =>
              let bin := get_bin shells res r1
              if bin = -1 then some { st with n_out := st.n_out + 1 }
              else
                let b := bin.toNat
                if isAnomalous st.fctx.fom then
                  let bij1 :=
                    match findEquiv st.l1 (-r1.h) (-r1.k) (-r1.l) with
                    | none => none
                    | some (hb, kb, lb) => find_idx st.l1 hb kb lb
                  let bij2 :=
                    match findEquiv st.l2 (-r1.h) (-r1.k) (-r1.l) with
                    | none => none
                    | some (hb, kb, lb) => find_idx st.l2 hb kb lb
                  if r1.flag then some st
                  else if r2.flag then none
                  else
                    match bij1, bij2 with
                    | some j1b, some j2b =>
                        match st.l1[j1b]?, st.l2[j2b]? with
                        | some r1b, some r2b =>
                            let setf := fun (r : Refl) => { r with flag := true }
                            some { st with
                              l1 := updAt (updAt st.l1 i setf) j1b setf,
                              l2 := updAt (updAt st.l2 j2 setf) j2b setf,
                              fctx := add_to_fom ops st.fctx
                                r1.intensity r2.intensity
                                r1b.intensity r2b.intensity
                                r1.esd r2.esd b }
                        | _, _ => some st
                    | _, _ => none
                else
                  some { st with
                    fctx := add_to_fom ops st.fctx r1.intensity r2.intensity
                      infinityPoison infinityPoison r1.esd r2.esd b }

/-- fom_calculate's main loop over the indices of list 1, threading the state
and propagating an assert failure. -/
def fcLoop (ops : NumOps) (res : Int → Int → Int → ℚ)
    (findEquiv : List Refl → Int → Int → Int → Option (Int × Int × Int))
    (shells : FomShells) : List Nat → FcState → Option FcState
  | [], st => some st
  | i :: rest, st =>
      match fcStep ops res findEquiv shells st i with
      | none => none
      | some st' => fcLoop ops res findEquiv shells rest st'

/-- Translation of `fom_calculate` (fom.c lines 803-915): initialise the
accumulators; unless `noscale` is set, run Wilson scaling (a failure aborts
the whole computation with NULL — modelled as `none`); clear the flags of the
common reflections; then run the main accumulation loop over list 1.  The
result is the filled accumulator context together with the final `n_out`
count of reflection pairs whose bin was -1. -/
def fom_calculate (ops : NumOps) (res : Int → Int → Int → ℚ)
    (findEquiv : List Refl → Int → Int → Int → Option (Int × Int × Int))
    (list1 list2 : List Refl) (shells : FomShells) (fom : FomType)
    (noscale : Bool) : Option (FomCtx × Nat) :=
  let fctx := init_fom fom shells.nshells
  match (if noscale then some list2
         else
           match wilson_scale ops res list1 list2 with
           | WilsonResult.ok _ l2s => some l2s
           | _ => none) with
  | none => none
  | some list2s =>
      match clearLoop (List.range list1.length) list1 list2s with
      | none => none
      | some (l1c, l2c) =>
          match fcLoop ops res findEquiv shells (List.range l1c.length)
              { l1 := l1c, l2 := l2c, fctx := fctx, n_out := 0 } with
          | none => none
          | some st => some (st.fctx, st.n_out)

/-- Lower boundary of shell `j` (array read `s->rmins[j]`). -/
def shellLo (s : FomShells) (j : Nat) : ℚ := s.rmins.getD j 0

/-- Upper boundary of shell `j` (array read `s->rmaxs[j]`). -/
def shellHi (s : FomShells) (j : Nat) : ℚ := s.rmaxs.getD j 0

/-- Well-formed resolution shells: at least one shell, adjacent shells share
their boundary (as `fom_make_resolution_shells` builds them), and every shell
is nondegenerate. -/
def goodShells (s : FomShells) : Prop :=
  0 < s.nshells
  ∧ (∀ j, j + 1 < s.nshells → shellHi s j = shellLo s (j + 1))
  ∧ (∀ j, j < s.nshells → shellLo s j < shellHi s j)

/-- Lower shell boundaries are monotone over well-formed shells. -/
theorem shellLo_mono (s : FomShells) (hs : goodShells s) :
    ∀ k, k < s.nshells → ∀ j, j ≤ k → shellLo s j ≤ shellLo s k := by
  obtain ⟨-, hcont, hlt⟩ := hs
  intro k
  induction k with
  | zero =>
      intro _ j hj
      rw [Nat.le_zero.mp hj]
  | succ k ih =>
      intro hk j hj
      rcases Nat.eq_or_lt_of_le hj with rfl | hjk
      · exact le_refl _
      · have hk' : k < s.nshells := Nat.lt_of_succ_lt hk
        calc shellLo s j ≤ shellLo s k := ih hk' j (Nat.lt_succ_iff.mp hjk)
          _ ≤ shellHi s k := le_of_lt (hlt k hk')
          _ = shellLo s (k + 1) := hcont k hk

/-- Upper shell boundaries are monotone over well-formed shells. -/
theorem shellHi_mono (s : FomShells) (hs : goodShells s) :
    ∀ k, k < s.nshells → ∀ j, j ≤ k → shellHi s j ≤ shellHi s k := by
  intro k hk j hj
  rcases Nat.eq_or_lt_of_le hj with rfl | hjk
  · exact le_refl _
  · have hj1 : j + 1 ≤ k := hjk
    calc shellHi s j = shellLo s (j + 1) :=
        hs.2.1 j (Nat.lt_of_le_of_lt hj1 hk)
      _ ≤ shellLo s k := shellLo_mono s hs k hk (j + 1) hj1
      _ ≤ shellHi s k := le_of_lt (hs.2.2 k hk)

/-- A value lies in the half-open interval of at most one well-formed
shell. -/
theorem shell_mem_unique (s : FomShells) (hs : goodShells s) (d : ℚ) :
    ∀ j k, j < s.nshells → k < s.nshells →
      (shellLo s j < d ∧ d ≤ shellHi s j) →
      (shellLo s k < d ∧ d ≤ shellHi s k) → j = k := by
  have key : ∀ j k, j < s.nshells → k < s.nshells →
      (shellLo s j < d ∧ d ≤ shellHi s j) →
      (shellLo s k < d ∧ d ≤ shellHi s k) → j < k → False := by
    intro j k _ hk hj hmk hjk
    have h1 : shellHi s j = shellLo s (j + 1) :=
      hs.2.1 j (Nat.lt_of_le_of_lt hjk hk)
    have h2 : shellLo s (j + 1) ≤ shellLo s k :=
      shellLo_mono s hs k hk (j + 1) hjk
    have hd1 : d ≤ shellLo s (j + 1) := h1 ▸ hj.2
    have hd2 : d ≤ shellLo s k := le_trans hd1 h2
    exact absurd (lt_of_le_of_lt hd2 hmk.1) (lt_irrefl d)
  intro j k hjn hkn hj hk
  rcases Nat.lt_trichotomy j k with h | h | h
  · exact absurd (key j k hjn hkn hj hk h) not_false
  · exact h
  · exact absurd (key k j hkn hjn hk hj h) not_false

/-- The scan of `binSearch` stops at the first matching shell. -/
theorem binSearch_eq_of_mem (s : FomShells) (d : ℚ) :
    ∀ (fuel j m : Nat), j ≤ m → m < j + fuel →
      (shellLo s m < d ∧ d ≤ shellHi s m) →
      (∀ k, j ≤ k → k < m → ¬ (shellLo s k < d ∧ d ≤ shellHi s k)) →
      binSearch s d j fuel = (m : Int) := by
  intro fuel
  induction fuel with
  | zero => intro j m hjm hm _ _; omega
  | succ fuel ih =>
      intro j m hjm hmlt hmem hmin
      rw [binSearch]
      by_cases hj : s.rmins.getD j 0 < d ∧ d ≤ s.rmaxs.getD j 0
      · rw [if_pos hj]
        rcases Nat.eq_or_lt_of_le hjm with rfl | hlt
        · rfl
        · exact absurd hj (hmin j (le_refl j) hlt)
      · rw [if_neg hj]
        have hjm' : j + 1 ≤ m := by
          rcases Nat.eq_or_lt_of_le hjm with rfl | hlt
          · exact absurd hmem hj
          · exact hlt
        exact ih (j + 1) m hjm' (by omega) hmem
          (fun k hk1 hk2 => hmin k (Nat.le_of_succ_le hk1) hk2)

/-- If no shell in the scanned range matches, `binSearch` returns -1. -/
theorem binSearch_eq_neg (s : FomShells) (d : ℚ) :
    ∀ (fuel j : Nat),
      (∀ k, j ≤ k → k < j + fuel → ¬ (shellLo s k < d ∧ d ≤ shellHi s k)) →
      binSearch s d j fuel = -1 := by
  intro fuel
  induction fuel with
  | zero => intro j _; rfl
  | succ fuel ih =>
      intro j hnone
      rw [binSearch]
      have hj := hnone j (le_refl j) (by omega)
      simp only [shellLo, shellHi] at hj
      rw [if_neg hj]
      exact ih (j + 1)
        (fun k hk1 hk2 => hnone k (Nat.le_of_succ_le hk1) (by omega))

/-- Values at or below the lowest shell boundary fall into bin 0 through the
first rounding-error fallback of `get_bin`. -/
theorem get_bin_d_low (s : FomShells) (hs : goodShells s) (d : ℚ)
    (hd : d ≤ shellLo s 0) : get_bin_d s d = 0 := by
  have hneg : binSearch s d 0 s.nshells = -1 := by
    apply binSearch_eq_neg
    intro k _ hk hmem
    have : shellLo s 0 ≤ shellLo s k :=
      shellLo_mono s hs k (by omega) 0 (Nat.zero_le k)
    exact absurd (lt_of_le_of_lt (le_trans hd this) hmem.1) (lt_irrefl d)
  simp only [get_bin_d]
  rw [hneg]
  rw [if_pos (show (-1 : Int) = -1 ∧ d ≤ s.rmins.getD 0 0 from ⟨rfl, hd⟩)]
  rw [if_neg (show ¬((0 : Int) = -1 ∧ s.rmaxs.getD (s.nshells - 1) 0 ≤ d)
        from fun hc => absurd hc.1 (by decide))]

/-- Values strictly inside the covered range land in the unique matching
shell. -/
theorem get_bin_d_mid (s : FomShells) (hs : goodShells s) (d : ℚ)
    (hlo : shellLo s 0 < d) (hhi : d ≤ shellHi s (s.nshells - 1)) :
    ∃ m : Nat, m < s.nshells ∧ get_bin_d s d = (m : Int) ∧
      shellLo s m < d ∧ d ≤ shellHi s m := by
  have hP : ∃ k, d ≤ shellHi s k := ⟨s.nshells - 1, hhi⟩
  have hm : d ≤ shellHi s (Nat.find hP) := Nat.find_spec hP
  have hmin : ∀ k, k < Nat.find hP → ¬ d ≤ shellHi s k :=
    fun k hk => Nat.find_min hP hk
  have hmn : Nat.find hP ≤ s.nshells - 1 := Nat.find_min' hP hhi
  have hn := hs.1
  have hmlt : Nat.find hP < s.nshells := by omega
  have hmemm : shellLo s (Nat.find hP) < d := by
    cases hfind : Nat.find hP with
    | zero => exact hlo
    | succ t =>
        have ht : ¬ d ≤ shellHi s t := by
          apply hmin
          omega
        have hbt : shellHi s t = shellLo s (t + 1) := by
          apply hs.2.1
          omega
        exact hbt ▸ (not_le.mp ht)
  have hbs : binSearch s d 0 s.nshells = (Nat.find hP : Int) := by
    apply binSearch_eq_of_mem s d s.nshells 0 (Nat.find hP) (Nat.zero_le _)
      (by omega) ⟨hmemm, hm⟩
    intro k _ hk hmem
    exact hmin k hk hmem.2
  refine ⟨Nat.find hP, hmlt, ?_, hmemm, hm⟩
  simp only [get_bin_d]
  rw [hbs]
  rw [if_neg (fun hc => by omega : ¬((Nat.find hP : Int) = -1 ∧ d ≤ s.rmins.getD 0 0))]
  rw [if_neg (fun hc => by omega :
        ¬((Nat.find hP : Int) = -1 ∧ s.rmaxs.getD (s.nshells - 1) 0 ≤ d))]

/-- Values strictly above the highest shell boundary fall into bin 0 through
the second rounding-error fallback of `get_bin`. -/
theorem get_bin_d_high (s : FomShells) (hs : goodShells s) (d : ℚ)
    (hd : shellHi s (s.nshells - 1) < d) : get_bin_d s d = 0 := by
  have hn := hs.1
  have hneg : binSearch s d 0 s.nshells = -1 := by
    apply binSearch_eq_neg
    intro k _ hk hmem
    have : shellHi s k ≤ shellHi s (s.nshells - 1) :=
      shellHi_mono s hs (s.nshells - 1) (by omega) k (by omega)
    exact absurd (lt_of_le_of_lt (le_trans hmem.2 this) hd) (lt_irrefl d)
  have hlo0 : ¬ d ≤ s.rmins.getD 0 0 := by
    have h1 : shellLo s 0 < shellHi s 0 := hs.2.2 0 hn
    have h2 : shellHi s 0 ≤ shellHi s (s.nshells - 1) :=
      shellHi_mono s hs (s.nshells - 1) (by omega) 0 (Nat.zero_le _)
    exact not_le.mpr (lt_trans (lt_of_lt_of_le h1 h2) hd)
  simp only [get_bin_d]
  rw [hneg]
  rw [if_neg (show ¬((-1 : Int) = -1 ∧ d ≤ s.rmins.getD 0 0)
        from fun hc => hlo0 hc.2)]
  rw [if_pos (show (-1 : Int) = -1 ∧ s.rmaxs.getD (s.nshells - 1) 0 ≤ d
        from ⟨rfl, le_of_lt hd⟩)]

/-- Totality of the shell scan over well-formed shells: the returned bin is a
valid shell index, never the sentinel -1. -/
theorem get_bin_d_bounds (s : FomShells) (hs : goodShells s) (d : ℚ) :
    0 ≤ get_bin_d s d ∧ get_bin_d s d < (s.nshells : Int) := by
  have hn := hs.1
  by_cases hlow : d ≤ shellLo s 0
  · rw [get_bin_d_low s hs d hlow]
    constructor
    · decide
    · exact_mod_cast hn
  · by_cases hhigh : d ≤ shellHi s (s.nshells - 1)
    · obtain ⟨m, hm, heq, -⟩ := get_bin_d_mid s hs d (not_le.mp hlow) hhigh
      rw [heq]
      constructor
      · exact Int.natCast_nonneg m
      · exact_mod_cast hm
    · rw [get_bin_d_high s hs d (not_le.mp hhigh)]
      constructor
      · decide
      · exact_mod_cast hn

/-- Claim C9.  Over well-formed shells, every value of the doubled resolution
d inside [lowest boundary, highest boundary] is assigned exactly one shell:
the returned bin is a valid index, at most one shell's half-open interval
contains d, and a value exactly on the boundary between two adjacent shells is
assigned the lower-index shell. -/
theorem c9_resolution_binning (s : FomShells) (hs : goodShells s) (d : ℚ)
    (hin1 : shellLo s 0 ≤ d) (hin2 : d ≤ shellHi s (s.nshells - 1)) :
    (∃ j : Nat, j < s.nshells ∧ get_bin_d s d = (j : Int))
    ∧ (∀ j k, j < s.nshells → k < s.nshells →
        (shellLo s j < d ∧ d ≤ shellHi s j) →
        (shellLo s k < d ∧ d ≤ shellHi s k) → j = k)
    ∧ (∀ j, j + 1 < s.nshells → d = shellHi s j → get_bin_d s d = (j : Int)) := by
  have hn := hs.1
  refine ⟨?_, shell_mem_unique s hs d, ?_⟩
  · rcases eq_or_lt_of_le hin1 with heq | hlt
    · exact ⟨0, hn, get_bin_d_low s hs d (le_of_eq heq.symm)⟩
    · obtain ⟨m, hm, heqb, -⟩ := get_bin_d_mid s hs d hlt hin2
      exact ⟨m, hm, heqb⟩
  · intro j hj hd
    have hjn : j < s.nshells := by omega
    have hmemj : shellLo s j < d ∧ d ≤ shellHi s j :=
      ⟨hd ▸ hs.2.2 j hjn, le_of_eq hd⟩
    have hlo : shellLo s 0 < d :=
      lt_of_le_of_lt (shellLo_mono s hs j hjn 0 (Nat.zero_le j)) hmemj.1
    obtain ⟨m, hm, heqb, hmemm⟩ := get_bin_d_mid s hs d hlo hin2
    have : m = j := shell_mem_unique s hs d m j hm hjn hmemm hmemj
    rw [heqb, this]

/-- The per-step n_out preservation: over well-formed shells no step of
fom_calculate's main loop can take the `bin == -1` branch. -/
theorem fcStep_n_out (ops : NumOps) (res : Int → Int → Int → ℚ)
    (findEquiv : List Refl → Int → Int → Int → Option (Int × Int × Int))
    (s : FomShells) (hs : goodShells s) (st : FcState) (i : Nat)
    (st' : FcState) (h : fcStep ops res findEquiv s st i = some st') :
    st'.n_out = st.n_out := by
  rw [fcStep] at h
  cases hr1 : st.l1[i]? with
  | none => rw [hr1] at h; cases h; rfl
  | some r1 =>
      rw [hr1] at h
      dsimp only at h
      cases hj2 : find_idx st.l2 r1.h r1.k r1.l with
      | none => rw [hj2] at h; cases h; rfl
      | some j2 =>
          rw [hj2] at h
          dsimp only at h
          cases hr2 : st.l2[j2]? with
          | none => rw [hr2] at h; cases h; rfl
          | some r2 =>
              rw [hr2] at h
              dsimp only at h
              have hbin := get_bin_d_bounds s hs (2 * res r1.h r1.k r1.l)
              rw [if_neg (show ¬ get_bin s res r1 = -1 by
                    rw [get_bin]; omega)] at h
              by_cases hano : isAnomalous st.fctx.fom = true
              · rw [if_pos hano] at h
                by_cases hf1 : r1.flag = true
                · rw [if_pos hf1] at h; cases h; rfl
                · rw [if_neg hf1] at h
                  by_cases hf2 : r2.flag = true
                  · rw [if_pos hf2] at h; cases h
                  · rw [if_neg hf2] at h
                    split at h
                    · split at h
                      · cases h; rfl
                      · cases h; rfl
                    · cases h
              · rw [if_neg hano] at h
                cases h; rfl

/-- Over well-formed shells, fom_calculate's main loop never increments
n_out. -/
theorem fcLoop_n_out (ops : NumOps) (res : Int → Int → Int → ℚ)
    (findEquiv : List Refl → Int → Int → Int → Option (Int × Int × Int))
    (s : FomShells) (hs : goodShells s) :
    ∀ (idxs : List Nat) (st st' : FcState),
      fcLoop ops res findEquiv s idxs st = some st' →
      st'.n_out = st.n_out := by
  intro idxs
  induction idxs with
  | nil => intro st st' h; cases h; rfl
  | cons i rest ih =>
      intro st st' h
      rw [fcLoop] at h
      cases hstep : fcStep ops res findEquiv s st i with
      | none => rw [hstep] at h; cases h
      | some st1 =>
          rw [hstep] at h
          dsimp only at h
          rw [ih st1 st' h]
          exact fcStep_n_out ops res findEquiv s hs st i st1 hstep

/-- Shells used by the counterexample to claim C10: two unit-width shells
covering (0, 2]. -/
def cexShells : FomShells := { nshells := 2, rmins := [0, 1], rmaxs := [1, 2] }

/-- Counterexample to claim C10 as stated.  A doubled resolution exactly at
the highest shell boundary (d = 2 on shells (0,1], (1,2]) is found by the main
scan of `get_bin` and assigned the last shell, index 1 — not shell 0 as the
claim's "at or above the highest shell boundary" clause asserts. -/
theorem c10_counterexample :
    get_bin_d cexShells 2 = 1 ∧ ((1 : Int) ≠ 0) := by
  constructor
  · norm_num [get_bin_d, binSearch, cexShells]
  · decide

/-- Claim C10 (amended).  Over well-formed shells, `get_bin` is total: it
returns a bin in [0, nshells) and never the sentinel -1; a doubled resolution
at or below the lowest boundary, or strictly above the highest boundary, is
assigned shell 0; one exactly at the highest boundary is assigned the last
shell (nshells - 1), not shell 0; consequently the `bin == -1` branch of
`fom_calculate` is unreachable and its final n_out count is 0. -/
theorem c10_get_bin_total (s : FomShells) (hs : goodShells s) :
    (∀ (res : Int → Int → Int → ℚ) (r : Refl),
        0 ≤ get_bin s res r ∧ get_bin s res r < (s.nshells : Int))
    ∧ (∀ d : ℚ, d ≤ shellLo s 0 → get_bin_d s d = 0)
    ∧ (∀ d : ℚ, shellHi s (s.nshells - 1) < d → get_bin_d s d = 0)
    ∧ get_bin_d s (shellHi s (s.nshells - 1))
        = ((s.nshells - 1 : Nat) : Int)
    ∧ (∀ ops res findEquiv list1 list2 fom noscale fctx nout,
          fom_calculate ops res findEquiv list1 list2 s fom noscale
            = some (fctx, nout) → nout = 0) := by
  have hn := hs.1
  refine ⟨fun res r => get_bin_d_bounds s hs _,
    fun d hd => get_bin_d_low s hs d hd,
    fun d hd => get_bin_d_high s hs d hd, ?_, ?_⟩
  · have hmem : shellLo s (s.nshells - 1) < shellHi s (s.nshells - 1) ∧
        shellHi s (s.nshells - 1) ≤ shellHi s (s.nshells - 1) :=
      ⟨hs.2.2 _ (by omega), le_refl _⟩
    have hlo : shellLo s 0 < shellHi s (s.nshells - 1) :=
      lt_of_le_of_lt (shellLo_mono s hs (s.nshells - 1) (by omega) 0
        (Nat.zero_le _)) hmem.1
    obtain ⟨m, hm, heqb, hmemm⟩ :=
      get_bin_d_mid s hs (shellHi s (s.nshells - 1)) hlo (le_refl _)
    have : m = s.nshells - 1 :=
      shell_mem_unique s hs _ m (s.nshells - 1) hm (by omega) hmemm hmem
    rw [heqb, this]
  · intro ops res findEquiv list1 list2 fom noscale fctx nout h
    rw [fom_calculate] at h
    cases hws : (if noscale = true then some list2
                 else
                   match wilson_scale ops res list1 list2 with
                   | WilsonResult.ok _ l2s => some l2s
                   | _ => none) with
    | none => rw [hws] at h; cases h
    | some list2s =>
        rw [hws] at h
        dsimp only at h
        cases hcl : clearLoop (List.range list1.length) list1 list2s with
        | none => rw [hcl] at h; cases h
        | some pr =>
            rw [hcl] at h
            dsimp only at h
            cases hloop : fcLoop ops res findEquiv s
                (List.range pr.1.length)
                { l1 := pr.1, l2 := pr.2, fctx := init_fom fom s.nshells,
                  n_out := 0 } with
            | none =>
                obtain ⟨p1, p2⟩ := pr
                rw [hloop] at h
                cases h
            | some st =>
                obtain ⟨p1, p2⟩ := pr
                rw [hloop] at h
                dsimp only at h
                cases h
                exact fcLoop_n_out ops res findEquiv s hs _ _ st hloop

/-- A single unit shell (0, 1], used to instantiate the shell theorems. -/
def wShells : FomShells := { nshells := 1, rmins := [0], rmaxs := [1] }

/-- Witness for claim C9 at the single shell (0, 1] and d = 1/2. -/
theorem c9_resolution_binning_witness :
    (∃ j : Nat, j < wShells.nshells ∧ get_bin_d wShells (1/2) = (j : Int))
    ∧ (∀ j k, j < wShells.nshells → k < wShells.nshells →
        (shellLo wShells j < 1/2 ∧ 1/2 ≤ shellHi wShells j) →
        (shellLo wShells k < 1/2 ∧ 1/2 ≤ shellHi wShells k) → j = k)
    ∧ (∀ j, j + 1 < wShells.nshells → (1/2 : ℚ) = shellHi wShells j →
        get_bin_d wShells (1/2) = (j : Int)) :=
  c9_resolution_binning wShells
    ⟨Nat.one_pos, fun _ hj => by simp only [wShells] at hj; omega,
     fun j hj => by
       simp only [wShells] at hj
       have hj0 : j = 0 := Nat.lt_one_iff.mp hj
       subst hj0
       norm_num [shellLo, shellHi, wShells]⟩
    (1/2) (by norm_num [shellLo, wShells])
    (by norm_num [shellHi, wShells])

/-- Witness for the amended claim C10 at the single shell (0, 1]. -/
theorem c10_get_bin_total_witness :
    (∀ (res : Int → Int → Int → ℚ) (r : Refl),
        0 ≤ get_bin wShells res r ∧ get_bin wShells res r < (wShells.nshells : Int))
    ∧ (∀ d : ℚ, d ≤ shellLo wShells 0 → get_bin_d wShells d = 0)
    ∧ (∀ d : ℚ, shellHi wShells (wShells.nshells - 1) < d →
        get_bin_d wShells d = 0)
    ∧ get_bin_d wShells (shellHi wShells (wShells.nshells - 1))
        = ((wShells.nshells - 1 : Nat) : Int)
    ∧ (∀ ops res findEquiv list1 list2 fom noscale fctx nout,
          fom_calculate ops res findEquiv list1 list2 wShells fom noscale
            = some (fctx, nout) → nout = 0) :=
  c10_get_bin_total wShells
    ⟨Nat.one_pos, fun _ hj => by simp only [wShells] at hj; omega,
     fun j hj => by
       simp only [wShells] at hj
       have hj0 : j = 0 := Nat.lt_one_iff.mp hj
       subst hj0
       norm_num [shellLo, shellHi, wShells]⟩

/-- The spec's "usable pairs" of Wilson scaling, written from the spec's
words: common reflections (present in both lists) with positive intensities
on both sides, each contributing x = (d*)² and y = log(I₁/I₂). -/
def usableWilsonPairs (ops : NumOps) (res : Int → Int → Int → ℚ)
    (list1 list2 : List Refl) : List (ℚ × ℚ) :=
  list1.filterMap (fun r1 =>
    match find_refl list2 r1.h r1.k r1.l with
    | some r2 =>
        if (0 : ℚ) < r1.intensity ∧ (0 : ℚ) < r2.intensity then
          some (res r1.h r1.k r1.l * res r1.h r1.k r1.l,
                ops.log (r1.intensity / r2.intensity))
        else none
    | none => none)

/-- When every reflection of list 1 has a partner in list 2 (so the assert in
wilson_scale's collection loop cannot fire), the collected pairs are exactly
the usable pairs. -/
theorem wilson_pairs_eq (ops : NumOps) (res : Int → Int → Int → ℚ)
    (list2 : List Refl) :
    ∀ list1 : List Refl,
      (∀ r1 ∈ list1, (find_refl list2 r1.h r1.k r1.l).isSome) →
      wilson_pairs list2 res ops list1
        = some (usableWilsonPairs ops res list1 list2) := by
  intro list1
  induction list1 with
  | nil => intro _; rfl
  | cons r1 rest ih =>
      intro hcommon
      rw [wilson_pairs]
      cases hf : find_refl list2 r1.h r1.k r1.l with
      | none =>
          have := hcommon r1 (List.mem_cons_self r1 rest)
          rw [hf] at this
          cases this
      | some r2 =>
          rw [ih (fun r hr => hcommon r (List.mem_cons_of_mem r1 hr))]
          dsimp only
          have hhead : usableWilsonPairs ops res (r1 :: rest) list2
              = (if (0 : ℚ) < r1.intensity ∧ (0 : ℚ) < r2.intensity then
                  ((res r1.h r1.k r1.l * res r1.h r1.k r1.l,
                    ops.log (r1.intensity / r2.intensity))
                     :: usableWilsonPairs ops res rest list2)
                 else usableWilsonPairs ops res rest list2) := by
            by_cases hpos : (0 : ℚ) < r1.intensity ∧ (0 : ℚ) < r2.intensity
            · rw [if_pos hpos]
              simp only [usableWilsonPairs, List.filterMap_cons, hf]
              rw [if_pos hpos]
            · rw [if_neg hpos]
              simp only [usableWilsonPairs, List.filterMap_cons, hf]
              rw [if_neg hpos]
          rw [hhead]
          by_cases hpos : (0 : ℚ) < r1.intensity ∧ (0 : ℚ) < r2.intensity
          · rw [if_pos hpos, if_pos hpos]
          · rw [if_neg hpos, if_neg hpos]

/-- Claim C4.  When the two lists share all of list 1's reflections, Wilson
scaling fails exactly when fewer than 2 usable pairs (common, both
intensities positive — NaN/infinity cannot arise over ℚ) are available or the
linear fit itself fails; otherwise it returns a rescaled list 2; and when it
fails, `fom_calculate` with scaling enabled returns no FOM context. -/
theorem c4_wilson_scaling_failure (ops : NumOps)
    (res : Int → Int → Int → ℚ) (list1 list2 : List Refl)
    (hcommon : ∀ r1 ∈ list1, (find_refl list2 r1.h r1.k r1.l).isSome) :
    (wilson_scale ops res list1 list2 = WilsonResult.scalingFailed ↔
      ((usableWilsonPairs ops res list1 list2).length < 2
       ∨ ops.fitLinear (usableWilsonPairs ops res list1 list2) = none))
    ∧ (¬ ((usableWilsonPairs ops res list1 list2).length < 2
          ∨ ops.fitLinear (usableWilsonPairs ops res list1 list2) = none) →
        ∃ l2s, wilson_scale ops res list1 list2 = WilsonResult.ok list1 l2s)
    ∧ (wilson_scale ops res list1 list2 = WilsonResult.scalingFailed →
        ∀ findEquiv shells fom,
          fom_calculate ops res findEquiv list1 list2 shells fom false
            = none) := by
  have hpairs := wilson_pairs_eq ops res list2 list1 hcommon
  refine ⟨?_, ?_, ?_⟩
  · rw [wilson_scale, hpairs]
    dsimp only
    by_cases hlen : (usableWilsonPairs ops res list1 list2).length < 2
    · rw [if_pos hlen]
      simp [hlen]
    · rw [if_neg hlen]
      cases hfit : ops.fitLinear (usableWilsonPairs ops res list1 list2) with
      | none => simp [hlen, hfit]
      | some c => cases c; simp [hlen, hfit]
  · intro hok
    rw [wilson_scale, hpairs]
    dsimp only
    rw [if_neg (fun hc => hok (Or.inl hc))]
    cases hfit : ops.fitLinear (usableWilsonPairs ops res list1 list2) with
    | none => exact absurd (Or.inr hfit) hok
    | some c =>
        cases c
        exact ⟨_, rfl⟩
  · intro hfail findEquiv shells fom
    rw [fom_calculate]
    rw [show (if false = true then some list2
              else
                match wilson_scale ops res list1 list2 with
                | WilsonResult.ok _ l2s => some l2s
                | _ => none) = none by rw [if_neg (by decide), hfail]]

/-- Fixed numeric routines for the witnesses: identity transcendentals, a fit
that always fails, zero statistics. -/
def opsFail : NumOps :=
  { sqrt := id, log := id, exp := id, fitLinear := fun _ => none,
    correlation := fun _ => 0, variance := fun _ => 0 }

/-- Witness for claim C4: two empty lists give zero usable pairs, and Wilson
scaling fails. -/
theorem c4_wilson_scaling_failure_witness :
    (wilson_scale opsFail (fun _ _ _ => 0) [] [] = WilsonResult.scalingFailed ↔
      ((usableWilsonPairs opsFail (fun _ _ _ => 0) [] []).length < 2
       ∨ opsFail.fitLinear (usableWilsonPairs opsFail (fun _ _ _ => 0) [] [])
           = none))
    ∧ (¬ ((usableWilsonPairs opsFail (fun _ _ _ => 0) [] []).length < 2
          ∨ opsFail.fitLinear (usableWilsonPairs opsFail (fun _ _ _ => 0) [] [])
              = none) →
        ∃ l2s, wilson_scale opsFail (fun _ _ _ => 0) [] []
            = WilsonResult.ok [] l2s)
    ∧ (wilson_scale opsFail (fun _ _ _ => 0) [] []
          = WilsonResult.scalingFailed →
        ∀ findEquiv shells fom,
          fom_calculate opsFail (fun _ _ _ => 0) findEquiv [] [] shells fom
            false = none) :=
  c4_wilson_scaling_failure opsFail (fun _ _ _ => 0) [] []
    (fun r1 hr1 => absurd hr1 (List.not_mem_nil r1))

/-- Claim C5.  When Wilson scaling succeeds, list 1 comes back untouched and
list 2 is exactly the input list with every reflection's intensity and σ(I)
multiplied by corr = G·exp(2·B·(d*)²) at that reflection's own resolution,
where G = exp(c0) and B = c1/2 come from the linear fit; all other fields of
every reflection are unchanged. -/
theorem c5_wilson_scale_frame (ops : NumOps) (res : Int → Int → Int → ℚ)
    (list1 list2 l1s l2s : List Refl)
    (h : wilson_scale ops res list1 list2 = WilsonResult.ok l1s l2s) :
    l1s = list1
    ∧ ∃ ps c0 c1, wilson_pairs list2 res ops list1 = some ps
        ∧ ops.fitLinear ps = some (c0, c1)
        ∧ l2s = list2.map (fun r2 =>
            let G := ops.exp c0
            let B := c1 / 2
            let corr := G * ops.exp (2 * B *
              (res r2.h r2.k r2.l * res r2.h r2.k r2.l))
            { r2 with intensity := r2.intensity * corr,
                      esd := r2.esd * corr }) := by
  rw [wilson_scale] at h
  cases hps : wilson_pairs list2 res ops list1 with
  | none => rw [hps] at h; cases h
  | some ps =>
      rw [hps] at h
      dsimp only at h
      by_cases hlen : ps.length < 2
      · rw [if_pos hlen] at h; cases h
      · rw [if_neg hlen] at h
        cases hfit : ops.fitLinear ps with
        | none => rw [hfit] at h; cases h
        | some c =>
            obtain ⟨c0, c1⟩ := c
            rw [hfit] at h
            dsimp only at h
            rw [WilsonResult.ok.injEq] at h
            exact ⟨h.1.symm, ps, c0, c1, rfl, hfit, h.2.symm⟩

/-- Numeric routines for the C5 witness: a fit that always returns
(c0, c1) = (0, 0) and an exp that is constantly 1, so that the applied
correction factor is 1·1. -/
def opsUnit : NumOps :=
  { sqrt := id, log := id, exp := fun _ => 1, fitLinear := fun _ => some (0, 0),
    correlation := fun _ => 0, variance := fun _ => 0 }

/-- Two reflections with distinct indices and positive intensities, giving
Wilson scaling two usable pairs. -/
def wRefl1 : Refl :=
  { h := 1, k := 0, l := 0, intensity := 4, esd := 1, partiality := 1,
    redundancy := 1, scalable := true, refinable := false, flag := false }

/-- Companion reflection for the Wilson-scaling witness. -/
def wRefl2 : Refl :=
  { h := 0, k := 1, l := 0, intensity := 9, esd := 2, partiality := 1,
    redundancy := 1, scalable := true, refinable := false, flag := false }

/-- The rescaled list produced by the C5 witness input. -/
def wilsonScaledW : List Refl :=
  [wRefl1, wRefl2].map (fun r2 =>
    let G := opsUnit.exp 0
    let B := (0 : ℚ) / 2
    let corr := G * opsUnit.exp (2 * B *
      ((fun _ _ _ => (0 : ℚ)) r2.h r2.k r2.l
        * (fun _ _ _ => (0 : ℚ)) r2.h r2.k r2.l))
    { r2 with intensity := r2.intensity * corr, esd := r2.esd * corr })

/-- Witness for claim C5: scaling [wRefl1, wRefl2] against itself succeeds
(two usable pairs, fit (0,0)) and the conclusion of the frame theorem holds
at that input. -/
theorem c5_wilson_scale_frame_witness :
    [wRefl1, wRefl2] = [wRefl1, wRefl2]
    ∧ ∃ ps c0 c1,
        wilson_pairs [wRefl1, wRefl2] (fun _ _ _ => 0) opsUnit [wRefl1, wRefl2]
          = some ps
        ∧ opsUnit.fitLinear ps = some (c0, c1)
        ∧ wilsonScaledW = [wRefl1, wRefl2].map (fun r2 =>
            let G := opsUnit.exp c0
            let B := c1 / 2
            let corr := G * opsUnit.exp (2 * B *
              ((fun _ _ _ => (0 : ℚ)) r2.h r2.k r2.l
                * (fun _ _ _ => (0 : ℚ)) r2.h r2.k r2.l))
            { r2 with intensity := r2.intensity * corr,
                      esd := r2.esd * corr }) :=
  c5_wilson_scale_frame opsUnit (fun _ _ _ => 0) [wRefl1, wRefl2]
    [wRefl1, wRefl2] [wRefl1, wRefl2] wilsonScaledW rfl

/-- Accumulator context exhibiting that the overall FOM is not the mean of
the per-shell values: two R1I shells with num/den 1/1 and 1/3. -/
def meanCtx : FomCtx :=
  { fom := FomType.R1I, nshells := 2, cts := [1, 1], num := [1, 1],
    den := [1, 3], num2 := [], den2 := [], vec1 := [], vec2 := [],
    n_within := [] }

/-- Claim C7.  For every FOM kind, the overall value finalises the per-shell
accumulators summed (or concatenated) across all shells — the ratio and root
are applied once, to the sums of the same per-shell numerators and
denominators that `fom_shell` reads; and the overall value is not a mean of
the per-shell values (shown on `meanCtx`, where the overall R1I is 1/2 but
the mean of the shell values is 2/3). -/
theorem c7_overall_accumulates (ops : NumOps) (fctx : FomCtx) :
    (fom_overall ops fctx =
      match fctx.fom with
      | FomType.R1I =>
          (((List.range fctx.nshells).map (fun i => shellVal fctx.num i)).sum)
            / (((List.range fctx.nshells).map (fun i => shellVal fctx.den i)).sum)
      | FomType.R1F =>
          (((List.range fctx.nshells).map (fun i => shellVal fctx.num i)).sum)
            / (((List.range fctx.nshells).map (fun i => shellVal fctx.den i)).sum)
      | FomType.R2 =>
          ops.sqrt
            ((((List.range fctx.nshells).map (fun i => shellVal fctx.num i)).sum)
              / (((List.range fctx.nshells).map (fun i => shellVal fctx.den i)).sum))
      | FomType.Rsplit =>
          2 * ((((List.range fctx.nshells).map (fun i => shellVal fctx.num i)).sum)
              / (((List.range fctx.nshells).map (fun i => shellVal fctx.den i)).sum))
            / ops.sqrt 2
      | FomType.CC => ops.correlation (joinVecs fctx)
      | FomType.CCano => ops.correlation (joinVecs fctx)
      | FomType.CCstar =>
          ops.sqrt ((2 * ops.correlation (joinVecs fctx))
            / (1 + ops.correlation (joinVecs fctx)))
      | FomType.CRDano =>
          ops.sqrt
            (ops.variance ((joinVecs fctx).map (fun p => (p.1 + p.2) / ops.sqrt 2))
              / ops.variance ((joinVecs fctx).map (fun p => (p.1 - p.2) / ops.sqrt 2)))
      | FomType.Rano =>
          2 * ((((List.range fctx.nshells).map (fun i => shellVal fctx.num i)).sum)
              / (((List.range fctx.nshells).map (fun i => shellVal fctx.den i)).sum))
      | FomType.RanoRsplit =>
          (2 * ((((List.range fctx.nshells).map (fun i => shellVal fctx.num i)).sum)
              / (((List.range fctx.nshells).map (fun i => shellVal fctx.den i)).sum)))
            / (2 * ((((List.range fctx.nshells).map (fun i => shellVal fctx.num2 i)).sum)
              / (((List.range fctx.nshells).map (fun i => shellVal fctx.den2 i)).sum))
                / ops.sqrt 2)
      | FomType.D1sig =>
          ((((List.range fctx.nshells).map (fun i => fctx.n_within.getD i 0)).sum : Nat) : ℚ)
            / ((((List.range fctx.nshells).map (fun i => fctx.cts.getD i 0)).sum : Nat) : ℚ)
      | FomType.D2sig =>
          ((((List.range fctx.nshells).map (fun i => fctx.n_within.getD i 0)).sum : Nat) : ℚ)
            / ((((List.range fctx.nshells).map (fun i => fctx.cts.getD i 0)).sum : Nat) : ℚ))
    ∧ fom_overall ops meanCtx
        ≠ (fom_shell ops meanCtx 0 + fom_shell ops meanCtx 1) / 2 := by
  constructor
  · cases hfom : fctx.fom <;>
      simp [fom_overall, hfom, sumShells, sumShellsN, shellVal]
  · have h1 : fom_overall ops meanCtx = 1/2 := by
      norm_num [fom_overall, meanCtx, sumShells, List.range_succ, shellVal]
    have h2 : fom_shell ops meanCtx 0 = 1 := by
      norm_num [fom_shell, meanCtx, shellVal]
    have h3 : fom_shell ops meanCtx 1 = 1/3 := by
      norm_num [fom_shell, meanCtx, shellVal]
    rw [h1, h2, h3]
    norm_num

/-- Length is preserved by an in-place array write. -/
theorem updAt_length {α : Type} : ∀ (l : List α) (i : Nat) (g : α → α),
    (updAt l i g).length = l.length
  | [], _, _ => rfl
  | _ :: as, 0, g => rfl
  | _ :: as, i + 1, g => congrArg Nat.succ (updAt_length as i g)

/-- Reading the written cell after an in-place write. -/
theorem updAt_getD_self {α : Type} (d : α) :
    ∀ (l : List α) (i : Nat) (g : α → α), i < l.length →
      (updAt l i g).getD i d = g (l.getD i d)
  | [], i, g, hi => absurd hi (by simp)
  | a :: as, 0, g, _ => rfl
  | a :: as, i + 1, g, hi =>
      updAt_getD_self d as i g (Nat.lt_of_succ_lt_succ hi)

/-- Reading any other cell after an in-place write. -/
theorem updAt_getD_ne {α : Type} (d : α) :
    ∀ (l : List α) (i : Nat) (g : α → α) (j : Nat), j ≠ i →
      (updAt l i g).getD j d = l.getD j d
  | [], _, _, _, _ => rfl
  | a :: as, 0, g, 0, hj => absurd rfl hj
  | a :: as, 0, g, j + 1, _ => rfl
  | a :: as, i + 1, g, 0, _ => rfl
  | a :: as, i + 1, g, j + 1, hj =>
      updAt_getD_ne d as i g j (fun h => hj (congrArg Nat.succ h))

/-- Mapping commutes away an in-place write that the map ignores. -/
theorem updAt_map {α β : Type} (m : α → β) (g : α → α)
    (hmg : ∀ a, m (g a) = m a) :
    ∀ (l : List α) (i : Nat), (updAt l i g).map m = l.map m
  | [], _ => rfl
  | a :: as, 0 => by simp [updAt, hmg]
  | a :: as, i + 1 => by simp [updAt, updAt_map m g hmg as i]

/-- Every cell of a zero-filled accumulator array reads zero. -/
theorem replicate_getD_zero : ∀ (n i : Nat), (List.replicate n (0 : ℚ)).getD i 0 = 0
  | 0, _ => rfl
  | n + 1, 0 => rfl
  | n + 1, i + 1 => replicate_getD_zero n i

/-- Forget the scratch flag of a reflection; two reflections equal after
`stripFlag` agree on every other field. -/
def stripFlag (r : Refl) : Refl := { r with flag := false }

/-- A missing index in `find_idx` means `find_refl` also misses. -/
theorem find_idx_none : ∀ (l : List Refl) (a b c : Int),
    find_idx l a b c = none → find_refl l a b c = none := by
  intro l a b c
  induction l with
  | nil => intro _; rfl
  | cons r rest ih =>
      intro h
      rw [find_idx] at h
      rw [find_refl, List.find?_cons]
      by_cases hp : (r.h = a && r.k = b && r.l = c) = true
      · rw [if_pos hp] at h; cases h
      · rw [if_neg hp] at h
        rw [Bool.not_eq_true] at hp
        rw [hp]
        simp only [cond_false]
        apply ih
        cases hfi : find_idx rest a b c with
        | none => rfl
        | some j => rw [hfi] at h; simp at h

/-- A hit in `find_idx` locates exactly the reflection `find_refl` returns. -/
theorem find_idx_some : ∀ (l : List Refl) (a b c : Int) (j : Nat),
    find_idx l a b c = some j → l[j]? = find_refl l a b c := by
  intro l a b c
  induction l with
  | nil => intro j h; cases h
  | cons r rest ih =>
      intro j h
      rw [find_idx] at h
      rw [find_refl, List.find?_cons]
      by_cases hp : (r.h = a && r.k = b && r.l = c) = true
      · rw [if_pos hp] at h
        cases h
        rw [hp]
        simp
      · rw [if_neg hp] at h
        rw [Bool.not_eq_true] at hp
        rw [hp]
        simp only [cond_false]
        cases hfi : find_idx rest a b c with
        | none => rw [hfi] at h; cases h
        | some j' =>
            rw [hfi] at h
            simp at h
            subst h
            simp only [List.getElem?_cons_succ]
            exact ih j' hfi

/-- Projections of `stripFlag`: only the flag is forgotten. -/
theorem stripFlag_fields (r r' : Refl) (h : stripFlag r = stripFlag r') :
    r.h = r'.h ∧ r.k = r'.k ∧ r.l = r'.l ∧ r.intensity = r'.intensity
    ∧ r.esd = r'.esd := by
  cases r
  cases r'
  simp only [stripFlag, Refl.mk.injEq] at h
  exact ⟨h.1, h.2.1, h.2.2.1, h.2.2.2.1, h.2.2.2.2.1⟩

/-- `find_refl` is invariant (up to the flag) under flag changes in the
searched list. -/
theorem find_refl_strip : ∀ (l l' : List Refl),
    l.map stripFlag = l'.map stripFlag → ∀ (a b c : Int),
      (find_refl l a b c).map stripFlag = (find_refl l' a b c).map stripFlag := by
  intro l
  induction l with
  | nil =>
      intro l' h a b c
      cases l' with
      | nil => rfl
      | cons x xs => simp at h
  | cons r rest ih =>
      intro l' h a b c
      cases l' with
      | nil => simp at h
      | cons r' rest' =>
          simp only [List.map_cons, List.cons.injEq] at h
          obtain ⟨hhead, htail⟩ := h
          obtain ⟨h1, h2, h3, -, -⟩ := stripFlag_fields r r' hhead
          rw [find_refl, find_refl, List.find?_cons, List.find?_cons]
          rw [h1, h2, h3]
          cases hp : (decide (r'.h = a) && decide (r'.k = b) && decide (r'.l = c)) with
          | false => exact ih rest' htail a b c
          | true =>
              dsimp only
              exact congrArg some hhead

/-- The flag-clearing loop changes nothing but flags. -/
theorem clearLoop_strip : ∀ (idxs : List Nat) (l1 l2 l1c l2c : List Refl),
    clearLoop idxs l1 l2 = some (l1c, l2c) →
    l1c.map stripFlag = l1.map stripFlag ∧ l2c.map stripFlag = l2.map stripFlag := by
  intro idxs
  induction idxs with
  | nil =>
      intro l1 l2 l1c l2c h
      rw [clearLoop] at h
      cases h
      exact ⟨rfl, rfl⟩
  | cons i rest ih =>
      intro l1 l2 l1c l2c h
      rw [clearLoop] at h
      cases hr1 : l1[i]? with
      | none =>
          rw [hr1] at h
          exact ih l1 l2 l1c l2c h
      | some r1 =>
          rw [hr1] at h
          dsimp only at h
          cases hfi : find_idx l2 r1.h r1.k r1.l with
          | none => rw [hfi] at h; cases h
          | some j =>
              rw [hfi] at h
              dsimp only at h
              have hflag : ∀ r : Refl,
                  stripFlag { r with flag := false } = stripFlag r := fun r => rfl
              obtain ⟨ha, hb⟩ := ih _ _ l1c l2c h
              constructor
              · rw [ha, updAt_map stripFlag _ hflag]
              · rw [hb, updAt_map stripFlag _ hflag]

/-- The contribution that index `j` of list 1 makes to per-shell accumulator
`i` of a non-anomalous R-type FOM, with `v` extracting the accumulated value
from the pair of intensities. -/
def contribV (v : ℚ × ℚ → ℚ) (res : Int → Int → Int → ℚ) (shells : FomShells)
    (l1 l2 : List Refl) (i : Nat) (j : Nat) : ℚ :=
  match l1[j]? with
  | some r1 =>
      match find_refl l2 r1.h r1.k r1.l with
      | some r2 =>
          if get_bin shells res r1 = (i : Int) then
            v (r1.intensity, r2.intensity)
          else 0
      | none => 0
  | none => 0

/-- The intensity pairs of the reflections of list 1 found in list 2 and
assigned to bin `i` by `get_bin`. -/
def binnedPairs (res : Int → Int → Int → ℚ) (shells : FomShells)
    (l1 l2 : List Refl) (i : Nat) : List (ℚ × ℚ) :=
  l1.filterMap (fun r1 =>
    match find_refl l2 r1.h r1.k r1.l with
    | some r2 =>
        if get_bin shells res r1 = (i : Int) then
          some (r1.intensity, r2.intensity)
        else none
    | none => none)

/-- The spec's per-shell selection: reflections of list 1 present in list 2
whose doubled resolution lies in shell i's interval (rmins i, rmaxs i]. -/
def commonInShell (res : Int → Int → Int → ℚ) (shells : FomShells)
    (l1 l2 : List Refl) (i : Nat) : List (ℚ × ℚ) :=
  l1.filterMap (fun r1 =>
    match find_refl l2 r1.h r1.k r1.l with
    | some r2 =>
        if shellLo shells i < 2 * res r1.h r1.k r1.l
            ∧ 2 * res r1.h r1.k r1.l ≤ shellHi shells i then
          some (r1.intensity, r2.intensity)
        else none
    | none => none)

/-- Summing the per-index contributions over all indices of list 1 gives the
sum of `v` over the binned pairs. -/
theorem contrib_sum_eq (v : ℚ × ℚ → ℚ) (res : Int → Int → Int → ℚ)
    (shells : FomShells) (l2 : List Refl) (i : Nat) :
    ∀ l1 : List Refl,
      ((List.range l1.length).map (contribV v res shells l1 l2 i)).sum
        = ((binnedPairs res shells l1 l2 i).map v).sum := by
  intro l1
  induction l1 with
  | nil => rfl
  | cons r rest ih =>
      rw [List.length_cons, List.range_succ_eq_map, List.map_cons, List.map_map]
      have htail : ((List.range rest.length).map
          (contribV v res shells (r :: rest) l2 i ∘ Nat.succ)).sum
          = ((List.range rest.length).map (contribV v res shells rest l2 i)).sum := by
        apply congrArg
        apply List.map_congr_left
        intro j _
        show contribV v res shells (r :: rest) l2 i (j + 1)
            = contribV v res shells rest l2 i j
        rw [contribV, contribV, List.getElem?_cons_succ]
      rw [List.sum_cons, htail, ih]
      have hsplit : binnedPairs res shells (r :: rest) l2 i
          = (match find_refl l2 r.h r.k r.l with
             | some r2 =>
                 if get_bin shells res r = (i : Int) then
                   (r.intensity, r2.intensity) :: binnedPairs res shells rest l2 i
                 else binnedPairs res shells rest l2 i
             | none => binnedPairs res shells rest l2 i) := by
        rw [binnedPairs, binnedPairs, List.filterMap_cons]
        cases find_refl l2 r.h r.k r.l with
        | none => rfl
        | some r2 =>
            dsimp only
            by_cases hbin : get_bin shells res r = (i : Int)
            · rw [if_pos hbin, if_pos hbin]
            · rw [if_neg hbin, if_neg hbin]
      rw [hsplit, contribV]
      simp only [List.getElem?_cons_zero]
      cases hf : find_refl l2 r.h r.k r.l with
      | none =>
          dsimp only
          rw [zero_add]
      | some r2 =>
          dsimp only
          by_cases hbin : get_bin shells res r = (i : Int)
          · rw [if_pos hbin, if_pos hbin, List.map_cons, List.sum_cons]
          · rw [if_neg hbin, if_neg hbin, zero_add]

/-- Unfolding of `add_to_fom` for the Rsplit FOM: the shell's counter is
bumped, |I₁−I₂| is added to the numerator and I₁+I₂ to the denominator. -/
theorem add_to_fom_rsplit (ops : NumOps) (fctx : FomCtx)
    (i1 i2 i1b i2b s1 s2 : ℚ) (b : Nat) (hfom : fctx.fom = FomType.Rsplit) :
    add_to_fom ops fctx i1 i2 i1b i2b s1 s2 b
      = { fctx with cts := updAt fctx.cts b (· + 1),
                    num := updAt fctx.num b (· + |i1 - i2|),
                    den := updAt fctx.den b (· + (i1 + i2)) } := by
  cases fctx with
  | mk fom ns cts num den num2 den2 v1 v2 nw =>
      cases hfom
      rfl

/-- Loop invariant of fom_calculate's main loop for the Rsplit FOM over
well-formed shells: the lists are untouched, the FOM kind, shell count and
accumulator lengths are preserved, and each shell's numerator and denominator
grow by the per-index contributions of the processed indices. -/
theorem fcLoop_rsplit_inv (ops : NumOps) (res : Int → Int → Int → ℚ)
    (findEquiv : List Refl → Int → Int → Int → Option (Int × Int × Int))
    (shells : FomShells) (hs : goodShells shells) :
    ∀ (idxs : List Nat) (st : FcState),
      st.fctx.fom = FomType.Rsplit →
      st.fctx.num.length = shells.nshells →
      st.fctx.den.length = shells.nshells →
      ∃ st', fcLoop ops res findEquiv shells idxs st = some st'
        ∧ st'.l1 = st.l1 ∧ st'.l2 = st.l2
        ∧ st'.fctx.fom = FomType.Rsplit
        ∧ st'.fctx.nshells = st.fctx.nshells
        ∧ st'.fctx.num.length = shells.nshells
        ∧ st'.fctx.den.length = shells.nshells
        ∧ (∀ i : Nat,
            st'.fctx.num.getD i 0 = st.fctx.num.getD i 0
              + (idxs.map (contribV (fun p => |p.1 - p.2|) res shells
                    st.l1 st.l2 i)).sum)
        ∧ (∀ i : Nat,
            st'.fctx.den.getD i 0 = st.fctx.den.getD i 0
              + (idxs.map (contribV (fun p => p.1 + p.2) res shells
                    st.l1 st.l2 i)).sum) := by
  intro idxs
  induction idxs with
  | nil =>
      intro st hfom hlnum hlden
      exact ⟨st, rfl, rfl, rfl, hfom, rfl, hlnum, hlden,
        fun i => (add_zero _).symm, fun i => (add_zero _).symm⟩
  | cons j rest ih =>
      intro st hfom hlnum hlden
      have hcontrib0 : ∀ (v : ℚ × ℚ → ℚ) (i : Nat),
          (st.l1[j]? = none ∨
           (∃ r1, st.l1[j]? = some r1 ∧ find_refl st.l2 r1.h r1.k r1.l = none)) →
          contribV v res shells st.l1 st.l2 i j = 0 := by
        intro v i hc
        rw [contribV]
        rcases hc with hc | ⟨r1, hc1, hc2⟩
        · rw [hc]
        · rw [hc1]
          dsimp only
          rw [hc2]
      cases hr1 : st.l1[j]? with
      | none =>
          obtain ⟨st', hloop, h1, h2, h3, h4, h5, h6, h7, h8⟩ :=
            ih st hfom hlnum hlden
          refine ⟨st', ?_, h1, h2, h3, h4, h5, h6, ?_, ?_⟩
          · rw [fcLoop, fcStep, hr1]
            exact hloop
          · intro i
            rw [List.map_cons, List.sum_cons,
              hcontrib0 _ i (Or.inl hr1), zero_add]
            exact h7 i
          · intro i
            rw [List.map_cons, List.sum_cons,
              hcontrib0 _ i (Or.inl hr1), zero_add]
            exact h8 i
      | some r1 =>
          cases hfi : find_idx st.l2 r1.h r1.k r1.l with
          | none =>
              have hfr : find_refl st.l2 r1.h r1.k r1.l = none :=
                find_idx_none st.l2 r1.h r1.k r1.l hfi
              obtain ⟨st', hloop, h1, h2, h3, h4, h5, h6, h7, h8⟩ :=
                ih st hfom hlnum hlden
              refine ⟨st', ?_, h1, h2, h3, h4, h5, h6, ?_, ?_⟩
              · rw [fcLoop, fcStep, hr1]
                dsimp only
                rw [hfi]
                exact hloop
              · intro i
                rw [List.map_cons, List.sum_cons,
                  hcontrib0 _ i (Or.inr ⟨r1, hr1, hfr⟩), zero_add]
                exact h7 i
              · intro i
                rw [List.map_cons, List.sum_cons,
                  hcontrib0 _ i (Or.inr ⟨r1, hr1, hfr⟩), zero_add]
                exact h8 i
          | some j2 =>
              have hfr := find_idx_some st.l2 r1.h r1.k r1.l j2 hfi
              cases hr2 : st.l2[j2]? with
              | none =>
                  have hfrn : find_refl st.l2 r1.h r1.k r1.l = none := by
                    rw [← hfr, hr2]
                  obtain ⟨st', hloop, h1, h2, h3, h4, h5, h6, h7, h8⟩ :=
                    ih st hfom hlnum hlden
                  refine ⟨st', ?_, h1, h2, h3, h4, h5, h6, ?_, ?_⟩
                  · rw [fcLoop, fcStep, hr1]
                    dsimp only
                    rw [hfi]
                    dsimp only
                    rw [hr2]
                    exact hloop
                  · intro i
                    rw [List.map_cons, List.sum_cons,
                      hcontrib0 _ i (Or.inr ⟨r1, hr1, hfrn⟩), zero_add]
                    exact h7 i
                  · intro i
                    rw [List.map_cons, List.sum_cons,
                      hcontrib0 _ i (Or.inr ⟨r1, hr1, hfrn⟩), zero_add]
                    exact h8 i
              | some r2 =>
                  have hfrs : find_refl st.l2 r1.h r1.k r1.l = some r2 := by
                    rw [← hfr, hr2]
                  have hbnds := get_bin_d_bounds shells hs
                    (2 * res r1.h r1.k r1.l)
                  have hbin_ne : ¬ get_bin shells res r1 = -1 := by
                    rw [get_bin]; omega
                  set st1 : FcState :=
                    { st with fctx := (add_to_fom ops st.fctx r1.intensity
                        r2.intensity infinityPoison infinityPoison r1.esd
                        r2.esd (get_bin shells res r1).toNat) } with hst1
                  have hstep : fcStep ops res findEquiv shells st j = some st1 := by
                    rw [fcStep, hr1]
                    dsimp only
                    rw [hfi]
                    dsimp only
                    rw [hr2]
                    dsimp only
                    rw [if_neg hbin_ne]
                    rw [if_neg (show ¬ isAnomalous st.fctx.fom = true by
                      rw [hfom]; decide)]
                  have hadd := add_to_fom_rsplit ops st.fctx
                    r1.intensity r2.intensity infinityPoison infinityPoison
                    r1.esd r2.esd (get_bin shells res r1).toNat hfom
                  have hfom1 : st1.fctx.fom = FomType.Rsplit := by
                    rw [hst1]
                    dsimp only
                    rw [hadd]
                    exact hfom
                  have hlnum1 : st1.fctx.num.length = shells.nshells := by
                    rw [hst1]
                    dsimp only
                    rw [hadd]
                    dsimp only
                    rw [updAt_length]
                    exact hlnum
                  have hlden1 : st1.fctx.den.length = shells.nshells := by
                    rw [hst1]
                    dsimp only
                    rw [hadd]
                    dsimp only
                    rw [updAt_length]
                    exact hlden
                  obtain ⟨st', hloop, h1, h2, h3, h4, h5, h6, h7, h8⟩ :=
                    ih st1 hfom1 hlnum1 hlden1
                  have hl1 : st1.l1 = st.l1 := rfl
                  have hl2 : st1.l2 = st.l2 := rfl
                  have hb_lt : (get_bin shells res r1).toNat < shells.nshells := by
                    rw [get_bin]
                    omega
                  have hcontribj : ∀ (v : ℚ × ℚ → ℚ) (i : Nat),
                      contribV v res shells st.l1 st.l2 i j
                        = (if (get_bin shells res r1).toNat = i then
                            v (r1.intensity, r2.intensity) else 0) := by
                    intro v i
                    rw [contribV, hr1]
                    dsimp only
                    rw [hfrs]
                    dsimp only
                    by_cases hib : (get_bin shells res r1).toNat = i
                    · rw [if_pos hib,
                        if_pos (show get_bin shells res r1 = (i : Int) by
                          rw [get_bin] at *
                          omega)]
                    · rw [if_neg hib,
                        if_neg (show ¬ get_bin shells res r1 = (i : Int) by
                          rw [get_bin] at *
                          omega)]
                  have hnum1 : ∀ i : Nat, st1.fctx.num.getD i 0
                      = st.fctx.num.getD i 0
                        + contribV (fun p => |p.1 - p.2|) res shells
                            st.l1 st.l2 i j := by
                    intro i
                    rw [hcontribj]
                    rw [hst1]
                    dsimp only
                    rw [hadd]
                    dsimp only
                    by_cases hib : (get_bin shells res r1).toNat = i
                    · rw [if_pos hib, ← hib,
                        updAt_getD_self 0 st.fctx.num _ _ (by rw [hlnum]; exact hb_lt)]
                    · rw [if_neg hib, add_zero,
                        updAt_getD_ne 0 st.fctx.num _ _ i (fun hh => hib hh.symm)]
                  have hden1 : ∀ i : Nat, st1.fctx.den.getD i 0
                      = st.fctx.den.getD i 0
                        + contribV (fun p => p.1 + p.2) res shells
                            st.l1 st.l2 i j := by
                    intro i
                    rw [hcontribj]
                    rw [hst1]
                    dsimp only
                    rw [hadd]
                    dsimp only
                    by_cases hib : (get_bin shells res r1).toNat = i
                    · rw [if_pos hib, ← hib,
                        updAt_getD_self 0 st.fctx.den _ _ (by rw [hlden]; exact hb_lt)]
                    · rw [if_neg hib, add_zero,
                        updAt_getD_ne 0 st.fctx.den _ _ i (fun hh => hib hh.symm)]
                  refine ⟨st', ?_, ?_, ?_, h3, ?_, h5, h6, ?_, ?_⟩
                  · rw [fcLoop, hstep]
                    exact hloop
                  · rw [h1, hl1]
                  · rw [h2, hl2]
                  · rw [h4, hst1]
                    dsimp only
                    rw [hadd]
                  · intro i
                    rw [List.map_cons, List.sum_cons]
                    have := h7 i
                    rw [hl1, hl2] at this
                    rw [this, hnum1 i]
                    ring
                  · intro i
                    rw [List.map_cons, List.sum_cons]
                    have := h8 i
                    rw [hl1, hl2] at this
                    rw [this, hden1 i]
                    ring

/-- Unfolding of `binnedPairs` on a cons cell. -/
theorem binnedPairs_cons (res : Int → Int → Int → ℚ) (shells : FomShells)
    (l2 : List Refl) (i : Nat) (r : Refl) (rest : List Refl) :
    binnedPairs res shells (r :: rest) l2 i
      = (match find_refl l2 r.h r.k r.l with
         | some r2 =>
             if get_bin shells res r = (i : Int) then
               (r.intensity, r2.intensity) :: binnedPairs res shells rest l2 i
             else binnedPairs res shells rest l2 i
         | none => binnedPairs res shells rest l2 i) := by
  rw [binnedPairs, binnedPairs, List.filterMap_cons]
  cases find_refl l2 r.h r.k r.l with
  | none => rfl
  | some r2 =>
      dsimp only
      by_cases hbin : get_bin shells res r = (i : Int)
      · rw [if_pos hbin, if_pos hbin]
      · rw [if_neg hbin, if_neg hbin]

/-- Unfolding of `commonInShell` on a cons cell. -/
theorem commonInShell_cons (res : Int → Int → Int → ℚ) (shells : FomShells)
    (l2 : List Refl) (i : Nat) (r : Refl) (rest : List Refl) :
    commonInShell res shells (r :: rest) l2 i
      = (match find_refl l2 r.h r.k r.l with
         | some r2 =>
             if shellLo shells i < 2 * res r.h r.k r.l
                 ∧ 2 * res r.h r.k r.l ≤ shellHi shells i then
               (r.intensity, r2.intensity) :: commonInShell res shells rest l2 i
             else commonInShell res shells rest l2 i
         | none => commonInShell res shells rest l2 i) := by
  rw [commonInShell, commonInShell, List.filterMap_cons]
  cases find_refl l2 r.h r.k r.l with
  | none => rfl
  | some r2 =>
      dsimp only
      by_cases hmem : shellLo shells i < 2 * res r.h r.k r.l
          ∧ 2 * res r.h r.k r.l ≤ shellHi shells i
      · rw [if_pos hmem, if_pos hmem]
      · rw [if_neg hmem, if_neg hmem]

/-- Over well-formed shells, when every reflection of list 1 falls inside the
covered resolution range, the pairs binned through `get_bin` at a valid shell
index are exactly the pairs of the shell's interval. -/
theorem binnedPairs_eq_common (res : Int → Int → Int → ℚ)
    (shells : FomShells) (hs : goodShells shells) (l2 : List Refl) (i : Nat)
    (hi : i < shells.nshells) :
    ∀ l1 : List Refl,
      (∀ r1 ∈ l1, shellLo shells 0 < 2 * res r1.h r1.k r1.l
         ∧ 2 * res r1.h r1.k r1.l ≤ shellHi shells (shells.nshells - 1)) →
      binnedPairs res shells l1 l2 i = commonInShell res shells l1 l2 i := by
  intro l1
  induction l1 with
  | nil => intro _; rfl
  | cons r rest ih =>
      intro hrange
      have htails := ih (fun x hx => hrange x (List.mem_cons_of_mem r hx))
      obtain ⟨hd1, hd2⟩ := hrange r (List.mem_cons_self r rest)
      obtain ⟨m, hm, heqb, hmemm⟩ :=
        get_bin_d_mid shells hs (2 * res r.h r.k r.l) hd1 hd2
      have hiff : get_bin shells res r = (i : Int) ↔
          (shellLo shells i < 2 * res r.h r.k r.l
            ∧ 2 * res r.h r.k r.l ≤ shellHi shells i) := by
        constructor
        · intro hgb
          rw [get_bin, heqb] at hgb
          have : m = i := by exact_mod_cast hgb
          rw [← this]
          exact hmemm
        · intro hmemi
          have : i = m := shell_mem_unique shells hs _ i m hi hm hmemi hmemm
          rw [get_bin, heqb, this]
      rw [binnedPairs_cons, commonInShell_cons]
      cases hf : find_refl l2 r.h r.k r.l with
      | none => exact htails
      | some r2 =>
          dsimp only
          by_cases hgb : get_bin shells res r = (i : Int)
          · rw [if_pos hgb, if_pos (hiff.mp hgb), htails]
          · rw [if_neg hgb, if_neg (fun hm2 => hgb (hiff.mpr hm2)), htails]

/-- `binnedPairs` only reads flag-invariant fields: lists equal up to flags
give the same binned pairs. -/
theorem binnedPairs_strip (res : Int → Int → Int → ℚ) (shells : FomShells)
    (i : Nat) :
    ∀ (l1 l1' l2 l2' : List Refl), l1.map stripFlag = l1'.map stripFlag →
      l2.map stripFlag = l2'.map stripFlag →
      binnedPairs res shells l1 l2 i = binnedPairs res shells l1' l2' i := by
  intro l1
  induction l1 with
  | nil =>
      intro l1' l2 l2' h1 _
      cases l1' with
      | nil => rfl
      | cons x xs => simp at h1
  | cons r rest ih =>
      intro l1' l2 l2' h1 h2
      cases l1' with
      | nil => simp at h1
      | cons r' rest' =>
          simp only [List.map_cons, List.cons.injEq] at h1
          obtain ⟨hhead, htail⟩ := h1
          obtain ⟨e1, e2, e3, e4, -⟩ := stripFlag_fields r r' hhead
          rw [binnedPairs_cons, binnedPairs_cons]
          rw [← e1, ← e2, ← e3, ← e4]
          have hff := find_refl_strip l2 l2' h2 r.h r.k r.l
          have hbg : get_bin shells res r' = get_bin shells res r := by
            rw [get_bin, get_bin, e1, e2, e3]
          rw [hbg]
          cases ho : find_refl l2 r.h r.k r.l with
          | none =>
              cases ho' : find_refl l2' r.h r.k r.l with
              | none => exact ih rest' l2 l2' htail h2
              | some x =>
                  rw [ho, ho'] at hff
                  simp at hff
          | some r2 =>
              cases ho' : find_refl l2' r.h r.k r.l with
              | none =>
                  rw [ho, ho'] at hff
                  simp at hff
              | some r2' =>
                  rw [ho, ho'] at hff
                  have hff' : stripFlag r2 = stripFlag r2' := by simpa using hff
                  have hi2 : r2.intensity = r2'.intensity :=
                    (stripFlag_fields r2 r2' hff').2.2.2.1
                  dsimp only
                  rw [← hi2]
                  by_cases hgb : get_bin shells res r = (i : Int)
                  · rw [if_pos hgb, if_pos hgb, ih rest' l2 l2' htail h2]
                  · rw [if_neg hgb, if_neg hgb, ih rest' l2 l2' htail h2]

/-- `fom_shell` for the Rsplit FOM reads 2·(num[i]/den[i])/√2. -/
theorem fom_shell_rsplit (ops : NumOps) (fctx : FomCtx) (i : Nat)
    (hfom : fctx.fom = FomType.Rsplit) :
    fom_shell ops fctx i
      = 2 * (fctx.num.getD i 0 / fctx.den.getD i 0) / ops.sqrt 2 := by
  cases fctx with
  | mk fom ns cts num den num2 den2 v1 v2 nw =>
      cases hfom
      rfl

/-- `fom_overall` for the Rsplit FOM reads 2·(Σnum/Σden)/√2. -/
theorem fom_overall_rsplit (ops : NumOps) (fctx : FomCtx)
    (hfom : fctx.fom = FomType.Rsplit) :
    fom_overall ops fctx
      = 2 * (sumShells fctx.num fctx.nshells
              / sumShells fctx.den fctx.nshells) / ops.sqrt 2 := by
  cases fctx with
  | mk fom ns cts num den num2 den2 v1 v2 nw =>
      cases hfom
      rfl

/-- On two copies of a duplicate-free list, every selected pair has equal
intensities. -/
theorem commonInShell_self (res : Int → Int → Int → ℚ) (shells : FomShells)
    (i : Nat) :
    ∀ (l1 l2 : List Refl), (∀ r ∈ l1, find_refl l2 r.h r.k r.l = some r) →
      ∀ p ∈ commonInShell res shells l1 l2 i, p.1 = p.2 := by
  intro l1
  induction l1 with
  | nil => intro l2 _ p hp; simp [commonInShell] at hp
  | cons r rest ih =>
      intro l2 hself p hp
      rw [commonInShell_cons, hself r (List.mem_cons_self r rest)] at hp
      dsimp only at hp
      by_cases hmem : shellLo shells i < 2 * res r.h r.k r.l
          ∧ 2 * res r.h r.k r.l ≤ shellHi shells i
      · rw [if_pos hmem] at hp
        rcases List.mem_cons.mp hp with heq | hp'
        · rw [heq]
        · exact ih l2 (fun x hx => hself x (List.mem_cons_of_mem r hx)) p hp'
      · rw [if_neg hmem] at hp
        exact ih l2 (fun x hx => hself x (List.mem_cons_of_mem r hx)) p hp

/-- Claim C6.  Over well-formed shells, for two reflection lists whose common
reflections all lie in the covered resolution range, the Rsplit value that
`fom_calculate` (scaling disabled) produces for shell i equals
(2/√2)·Σ|I₁−I₂| / Σ(I₁+I₂), the sums running over the reflections of list 1
present in list 2 whose doubled resolution lies in shell i's interval; and on
two copies of the same duplicate-free list every shell's Rsplit and the
overall Rsplit are 0. -/
theorem c6_rsplit_shell_formula (ops : NumOps) (res : Int → Int → Int → ℚ)
    (findEquiv : List Refl → Int → Int → Int → Option (Int × Int × Int))
    (list1 list2 : List Refl) (shells : FomShells)
    (hs : goodShells shells)
    (hrange : ∀ r1 ∈ list1, shellLo shells 0 < 2 * res r1.h r1.k r1.l
        ∧ 2 * res r1.h r1.k r1.l ≤ shellHi shells (shells.nshells - 1))
    (fctx : FomCtx) (nout : Nat)
    (hcalc : fom_calculate ops res findEquiv list1 list2 shells
        FomType.Rsplit true = some (fctx, nout)) :
    (∀ i, i < shells.nshells →
        fom_shell ops fctx i
          = 2 / ops.sqrt 2
            * (((commonInShell res shells list1 list2 i).map
                  (fun p => |p.1 - p.2|)).sum
               / ((commonInShell res shells list1 list2 i).map
                  (fun p => p.1 + p.2)).sum))
    ∧ (list2 = list1 →
        (∀ r ∈ list1, find_refl list1 r.h r.k r.l = some r) →
        (∀ i, i < shells.nshells → fom_shell ops fctx i = 0)
          ∧ fom_overall ops fctx = 0) := by
  rw [fom_calculate, if_pos rfl] at hcalc
  dsimp only at hcalc
  cases hclear : clearLoop (List.range list1.length) list1 list2 with
  | none => rw [hclear] at hcalc; cases hcalc
  | some pr =>
      obtain ⟨l1c, l2c⟩ := pr
      rw [hclear] at hcalc
      dsimp only at hcalc
      obtain ⟨hstrip1, hstrip2⟩ :=
        clearLoop_strip (List.range list1.length) list1 list2 l1c l2c hclear
      obtain ⟨st', hloop, hl1, hl2, hfom', hns, hlnum, hlden, hnum, hden⟩ :=
        fcLoop_rsplit_inv ops res findEquiv shells hs
          (List.range l1c.length)
          { l1 := l1c, l2 := l2c, fctx := init_fom FomType.Rsplit shells.nshells,
            n_out := 0 }
          rfl (List.length_replicate _ _) (List.length_replicate _ _)
      rw [hloop] at hcalc
      dsimp only at hcalc
      rw [Option.some.injEq, Prod.mk.injEq] at hcalc
      obtain ⟨hfctx, -⟩ := hcalc
      subst hfctx
      have hlen1 : l1c.length = list1.length := by
        have := congrArg List.length hstrip1
        simpa using this
      have hnumval : ∀ i, i < shells.nshells →
          st'.fctx.num.getD i 0
            = ((commonInShell res shells list1 list2 i).map
                (fun p => |p.1 - p.2|)).sum := by
        intro i hi
        rw [hnum i]
        simp only [init_fom]
        rw [replicate_getD_zero, zero_add, contrib_sum_eq,
          binnedPairs_strip res shells i l1c list1 l2c list2 hstrip1 hstrip2,
          binnedPairs_eq_common res shells hs list2 i hi list1 hrange]
      have hdenval : ∀ i, i < shells.nshells →
          st'.fctx.den.getD i 0
            = ((commonInShell res shells list1 list2 i).map
                (fun p => p.1 + p.2)).sum := by
        intro i hi
        rw [hden i]
        simp only [init_fom]
        rw [replicate_getD_zero, zero_add, contrib_sum_eq,
          binnedPairs_strip res shells i l1c list1 l2c list2 hstrip1 hstrip2,
          binnedPairs_eq_common res shells hs list2 i hi list1 hrange]
      constructor
      · intro i hi
        rw [fom_shell_rsplit ops st'.fctx i hfom', hnumval i hi, hdenval i hi]
        ring
      · intro hll hself
        rw [hll] at hnumval
        have hzero : ∀ i, i < shells.nshells →
            ((commonInShell res shells list1 list1 i).map
              (fun p => |p.1 - p.2|)).sum = 0 := by
          intro i hi
          apply List.sum_eq_zero
          intro x hx
          obtain ⟨p, hp, hpx⟩ := List.mem_map.mp hx
          rw [← hpx, commonInShell_self res shells i list1 list1 hself p hp]
          simp
        constructor
        · intro i hi
          rw [fom_shell_rsplit ops st'.fctx i hfom', hnumval i hi, hzero i hi]
          simp
        · rw [fom_overall_rsplit ops st'.fctx hfom']
          have hnsv : st'.fctx.nshells = shells.nshells := hns
          have hsum0 : sumShells st'.fctx.num st'.fctx.nshells = 0 := by
            rw [hnsv, sumShells]
            apply List.sum_eq_zero
            intro x hx
            obtain ⟨i, hi, hix⟩ := List.mem_map.mp hx
            rw [← hix, hnumval i (List.mem_range.mp hi), hzero i (List.mem_range.mp hi)]
          rw [hsum0]
          simp

/-- Witness for claim C6 at the single shell (0, 1] and two empty lists. -/
theorem c6_rsplit_shell_formula_witness :
    (∀ i, i < wShells.nshells →
        fom_shell opsFail (init_fom FomType.Rsplit wShells.nshells) i
          = 2 / opsFail.sqrt 2
            * (((commonInShell (fun _ _ _ => 0) wShells [] [] i).map
                  (fun p => |p.1 - p.2|)).sum
               / ((commonInShell (fun _ _ _ => 0) wShells [] [] i).map
                  (fun p => p.1 + p.2)).sum))
    ∧ (([] : List Refl) = ([] : List Refl) →
        (∀ r ∈ ([] : List Refl), find_refl [] r.h r.k r.l = some r) →
        (∀ i, i < wShells.nshells →
            fom_shell opsFail (init_fom FomType.Rsplit wShells.nshells) i = 0)
          ∧ fom_overall opsFail (init_fom FomType.Rsplit wShells.nshells) = 0) :=
  c6_rsplit_shell_formula opsFail (fun _ _ _ => 0) (fun _ _ _ _ => none)
    [] [] wShells
    ⟨Nat.one_pos, fun _ hj => by simp only [wShells] at hj; omega,
     fun j hj => by
       simp only [wShells] at hj
       have hj0 : j = 0 := Nat.lt_one_iff.mp hj
       subst hj0
       norm_num [shellLo, shellHi, wShells]⟩
    (fun r hr => absurd hr (List.not_mem_nil r))
    (init_fom FomType.Rsplit wShells.nshells) 0 rfl

/-- The C library's cbrt as used by fom_make_resolution_shells:
pow(x, 1.0/3.0), idealised over the reals. -/
noncomputable def cbrtR (x : ℝ) : ℝ := x ^ ((1 : ℝ)/3)

/-- The recurrence of `fom_make_resolution_shells` (fom.c lines 624-663) for
the lower shell boundaries: rmins[0] = rmin and
rmins[i] = (vol_per_shell + rmins[i-1]³)^(1/3). -/
noncomputable def shellRminsR (rmin v : ℝ) : Nat → ℝ
  | 0 => rmin
  | i + 1 => cbrtR (v + (shellRminsR rmin v i) ^ (3 : ℕ))

/-- Resolution shells over the reals (`struct fom_shells` as built by
fom_make_resolution_shells). -/
structure FomShellsR where
  nshells : Nat
  rmins : List ℝ
  rmaxs : List ℝ

/-- Translation of `fom_make_resolution_shells` (fom.c lines 624-663): the
total reciprocal volume rmax³ − rmin³ is divided evenly; each interior
boundary is the cube root of the previous boundary's cube plus one shell's
volume, shared as rmaxs[i-1] = rmins[i]; the last upper boundary is rmax. -/
noncomputable def fom_make_resolution_shells (rmin rmax : ℝ) (nshells : Nat) :
    FomShellsR :=
  let total_vol := rmax ^ (3 : ℕ) - rmin ^ (3 : ℕ)
  let vol_per_shell := total_vol / nshells
  { nshells := nshells
    rmins := (List.range nshells).map (shellRminsR rmin vol_per_shell)
    rmaxs := (List.range nshells).map (fun i =>
      if i = nshells - 1 then rmax
      else shellRminsR rmin vol_per_shell (i + 1)) }

/-- Closed form of the boundary recurrence: rmins[i] = (rmin³ + i·v)^(1/3),
and every boundary is nonnegative. -/
theorem shellRminsR_closed (rmin v : ℝ) (h0 : 0 ≤ rmin) (hv : 0 ≤ v) :
    ∀ i : Nat, shellRminsR rmin v i
        = (rmin ^ (3 : ℕ) + (i : ℝ) * v) ^ ((1 : ℝ)/3)
      ∧ 0 ≤ shellRminsR rmin v i := by
  intro i
  induction i with
  | zero =>
      constructor
      · rw [shellRminsR]
        rw [show ((0 : Nat) : ℝ) * v = 0 by norm_num, add_zero]
        rw [← Real.rpow_natCast rmin 3, ← Real.rpow_mul h0]
        norm_num
      · exact h0
  | succ i ih =>
      have hbase : (0 : ℝ) ≤ rmin ^ (3 : ℕ) + (i : ℝ) * v := by
        have := pow_nonneg h0 3
        have := mul_nonneg (Nat.cast_nonneg i : (0:ℝ) ≤ (i : ℝ)) hv
        linarith
      constructor
      · rw [shellRminsR, ih.1, cbrtR]
        rw [← Real.rpow_natCast ((rmin ^ (3:ℕ) + (i : ℝ) * v) ^ ((1:ℝ)/3)) 3,
          ← Real.rpow_mul hbase]
        norm_num
        ring_nf
      · rw [shellRminsR, cbrtR]
        apply Real.rpow_nonneg
        have h3 : (0 : ℝ) ≤ (shellRminsR rmin v i) ^ (3 : ℕ) :=
          pow_nonneg ih.2 3
        linarith

/-- Reading the i-th entry of a table built by mapping over `List.range`. -/
theorem getD_map_range (n : Nat) (g : Nat → ℝ) (i : Nat) (hi : i < n) :
    ((List.range n).map g).getD i 0 = g i := by
  rw [List.getD_eq_getElem?_getD, List.getElem?_map, List.getElem?_range hi]
  rfl

/-- Claim C8.  For 0 ≤ rmin ≤ rmax and n > 0 shells, the constructed shells
partition [rmin, rmax] into n contiguous bins of equal reciprocal volume:
with v = (rmax³ − rmin³)/n, shell i has boundaries
rmins[i] = (rmin³ + i·v)^(1/3) and rmaxs[i] = (rmin³ + (i+1)·v)^(1/3), and
adjacent shells share their boundary; concretely, for d*_min = 0.1,
d*_max = 1.0 and n = 10 the boundary between shells 0 and 1 is
(0.001 + 0.0999)^(1/3). -/
theorem c8_equal_volume_shells (rmin rmax : ℝ) (n : Nat)
    (h0 : 0 ≤ rmin) (hle : rmin ≤ rmax) (hn : 0 < n) :
    (∀ i, i < n →
        ((fom_make_resolution_shells rmin rmax n).rmins.getD i 0
            = (rmin ^ (3 : ℕ)
                + (i : ℝ) * ((rmax ^ (3 : ℕ) - rmin ^ (3 : ℕ)) / n))
              ^ ((1 : ℝ)/3)
         ∧ (fom_make_resolution_shells rmin rmax n).rmaxs.getD i 0
            = (rmin ^ (3 : ℕ)
                + ((i : ℝ) + 1) * ((rmax ^ (3 : ℕ) - rmin ^ (3 : ℕ)) / n))
              ^ ((1 : ℝ)/3)))
    ∧ (∀ i, i + 1 < n →
        (fom_make_resolution_shells rmin rmax n).rmaxs.getD i 0
          = (fom_make_resolution_shells rmin rmax n).rmins.getD (i + 1) 0)
    ∧ (fom_make_resolution_shells (0.1 : ℝ) 1 10).rmaxs.getD 0 0
        = ((0.001 : ℝ) + 0.0999) ^ ((1 : ℝ)/3) := by
  have hv : 0 ≤ (rmax ^ (3 : ℕ) - rmin ^ (3 : ℕ)) / n := by
    apply div_nonneg
    · have := pow_le_pow_left h0 hle 3
      linarith
    · exact Nat.cast_nonneg n
  have hrmaxpos : 0 ≤ rmax := le_trans h0 hle
  have hclosed := shellRminsR_closed rmin
    ((rmax ^ (3 : ℕ) - rmin ^ (3 : ℕ)) / n) h0 hv
  have hlast : ∀ i, i = n - 1 → i < n →
      rmax = (rmin ^ (3 : ℕ)
        + ((i : ℝ) + 1) * ((rmax ^ (3 : ℕ) - rmin ^ (3 : ℕ)) / n))
          ^ ((1 : ℝ)/3) := by
    intro i hi _
    subst hi
    have hcast : ((n - 1 : Nat) : ℝ) + 1 = (n : ℝ) := by
      have h1 : (n - 1) + 1 = n := Nat.succ_pred_eq_of_pos hn
      exact_mod_cast congrArg (fun m : Nat => (m : ℝ)) h1
    rw [hcast]
    have hnne : (n : ℝ) ≠ 0 := by
      exact_mod_cast Nat.pos_iff_ne_zero.mp hn
    rw [show (n : ℝ) * ((rmax ^ (3 : ℕ) - rmin ^ (3 : ℕ)) / n)
          = rmax ^ (3 : ℕ) - rmin ^ (3 : ℕ) by
      field_simp]
    rw [show rmin ^ (3 : ℕ) + (rmax ^ (3 : ℕ) - rmin ^ (3 : ℕ))
          = rmax ^ (3 : ℕ) by ring]
    rw [← Real.rpow_natCast rmax 3, ← Real.rpow_mul hrmaxpos]
    norm_num
  refine ⟨?_, ?_, ?_⟩
  · intro i hi
    constructor
    · show ((List.range n).map _).getD i 0 = _
      rw [getD_map_range n _ i hi]
      exact (hclosed i).1
    · show ((List.range n).map _).getD i 0 = _
      rw [getD_map_range n _ i hi]
      by_cases hilast : i = n - 1
      · rw [if_pos hilast]
        exact hlast i hilast hi
      · rw [if_neg hilast]
        rw [(hclosed (i + 1)).1]
        push_cast
        ring_nf
  · intro i hi
    show ((List.range n).map _).getD i 0 = ((List.range n).map _).getD (i + 1) 0
    rw [getD_map_range n _ i (by omega), getD_map_range n _ (i + 1) hi]
    rw [if_neg (by omega : ¬ i = n - 1)]
  · simp only [fom_make_resolution_shells]
    rw [getD_map_range 10 _ 0 (by norm_num)]
    rw [if_neg (by norm_num : ¬ (0 : Nat) = 10 - 1)]
    have hv10 : (0 : ℝ) ≤ ((1 : ℝ) ^ (3 : ℕ) - (0.1 : ℝ) ^ (3 : ℕ)) / 10 := by
      norm_num
    have hcl := (shellRminsR_closed (0.1 : ℝ)
      (((1 : ℝ) ^ (3 : ℕ) - (0.1 : ℝ) ^ (3 : ℕ)) / 10) (by norm_num) hv10 1).1
    simp only [Nat.cast_ofNat, zero_add]
    rw [hcl]
    norm_num

/-- Witness for claim C8 at rmin = 0, rmax = 1 with a single shell. -/
theorem c8_equal_volume_shells_witness :
    (∀ i, i < 1 →
        ((fom_make_resolution_shells (0 : ℝ) 1 1).rmins.getD i 0
            = ((0 : ℝ) ^ (3 : ℕ)
                + (i : ℝ) * (((1 : ℝ) ^ (3 : ℕ) - (0 : ℝ) ^ (3 : ℕ)) / (1 : Nat)))
              ^ ((1 : ℝ)/3)
         ∧ (fom_make_resolution_shells (0 : ℝ) 1 1).rmaxs.getD i 0
            = ((0 : ℝ) ^ (3 : ℕ)
                + ((i : ℝ) + 1) * (((1 : ℝ) ^ (3 : ℕ) - (0 : ℝ) ^ (3 : ℕ)) / (1 : Nat)))
              ^ ((1 : ℝ)/3)))
    ∧ (∀ i, i + 1 < 1 →
        (fom_make_resolution_shells (0 : ℝ) 1 1).rmaxs.getD i 0
          = (fom_make_resolution_shells (0 : ℝ) 1 1).rmins.getD (i + 1) 0)
    ∧ (fom_make_resolution_shells (0.1 : ℝ) 1 10).rmaxs.getD 0 0
        = ((0.001 : ℝ) + 0.0999) ^ ((1 : ℝ)/3) :=
  c8_equal_volume_shells 0 1 1 le_rfl zero_le_one Nat.one_pos
